import Mathlib

/- Verification of the XFA form-filling core (app/zim_xfa.py) and the fill endpoint of
   app/main.py. Python strings are modeled as lists of characters (`Str`); the lxml
   element trees parsed from the embedded datasets packet are modeled by the nested
   inductive `XmlNode` (tag, optional text, element children — the code filters out
   non-element children such as comments, so only element children are modeled).
   In-place mutation of a node found by reference is modeled as a functional update at
   the node's identity, where identity is the sequence of child indices from the data
   root (lxml object identity determines a unique such position). Python floats are
   modeled as exact rationals. ASCII-only case mapping models str.lower/str.casefold,
   which agree with it on the ASCII identifiers and paths this system manipulates. -/

abbrev Str := List Char

/-- Models Python str.lower as used on field paths. -/
def lowerStr (s : Str) : Str := s.map Char.toLower

/-- Models Python str.casefold as used by the acronym mismatch comparison. -/
def caseFold (s : Str) : Str := s.map Char.toLower

def isWs (c : Char) : Bool := c.isWhitespace

def trimLeft (s : Str) : Str := s.dropWhile isWs

def trimRight (s : Str) : Str := (s.reverse.dropWhile isWs).reverse

/-- Models Python str.strip(). -/
def trimStr (s : Str) : Str := trimRight (trimLeft s)

/-- Source normalize_text on a definite string: str(value).strip(). -/
def normalizeStr (s : Str) : Str := trimStr s

/-- Source normalize_text(value) = str(value or "").strip(): None becomes "". -/
def normalize_text (v : Option Str) : Str := normalizeStr (v.getD [])

def digitChar : Nat → Char
  | 0 => '0'
  | 1 => '1'
  | 2 => '2'
  | 3 => '3'
  | 4 => '4'
  | 5 => '5'
  | 6 => '6'
  | 7 => '7'
  | 8 => '8'
  | 9 => '9'
  | _ => '0'

def natDigitsAux : Nat → Nat → Str
  | 0, _ => []
  | fuel + 1, n => if n < 10 then [digitChar n] else natDigitsAux fuel (n / 10) ++ [digitChar (n % 10)]

/-- Decimal rendering of a natural number, as Python renders an int (the fuel argument
    only drives the recursion and is always sufficient). -/
def natToStr (n : Nat) : Str := natDigitsAux (n + 1) n

/-- Numeric value of a string of decimal digits, as Python int() on such a string. -/
def digitsVal (s : Str) : Nat := s.foldl (fun a c => 10 * a + (c.toNat - 48)) 0

/-- Splitting on a separator character keeping empty parts: Python str.split("/"). -/
def splitOnChar (c : Char) : Str → List Str
  | [] => [[]]
  | x :: xs =>
    if x = c then [] :: splitOnChar c xs
    else
      match splitOnChar c xs with
      | [] => [[x]]
      | s :: ss => (x :: s) :: ss

/-- Python substring test: needle in hay. -/
def inStr : Str → Str → Bool
  | needle, [] => needle.isEmpty
  | needle, c :: rest => needle.isPrefixOf (c :: rest) || inStr needle rest

/-- Source local_name: tag.split("}", 1)[1] if "}" in tag else tag. -/
def local_name (tag : Str) : Str :=
  if '}' ∈ tag then (tag.dropWhile (fun c => c ≠ '}')).drop 1 else tag

/-- An lxml element of the datasets tree: tag, optional text, element children. -/
inductive XmlNode where
  | mk (tag : Str) (text : Option Str) (children : List XmlNode)

def XmlNode.tag : XmlNode → Str
  | .mk t _ _ => t

def XmlNode.text : XmlNode → Option Str
  | .mk _ x _ => x

def XmlNode.children : XmlNode → List XmlNode
  | .mk _ _ c => c

mutual
def xmlEq : XmlNode → XmlNode → Bool
  | .mk t x cs, .mk t' x' cs' => t == t' && x == x' && xmlEqL cs cs'
def xmlEqL : List XmlNode → List XmlNode → Bool
  | [], [] => true
  | c :: cs, c' :: cs' => xmlEq c c' && xmlEqL cs cs'
  | _, _ => false
end

/-- Well-formedness of an XML local name: XML names are non-empty and may contain
    neither the path separator "/" nor the index bracket "[". -/
def validName (s : Str) : Bool := !s.isEmpty && !(decide ('/' ∈ s)) && !(decide ('[' ∈ s))

mutual
def validTree : XmlNode → Bool
  | .mk t _ cs => validName (local_name t) && validForest cs
def validForest : List XmlNode → Bool
  | [] => true
  | c :: rest => validTree c && validForest rest
end

def sameName (name : Str) (s : XmlNode) : Bool := local_name s.tag == name

/-- Source _segment_name(element, siblings). lxml list membership and .index use object
    identity, so `same.index(element)` equals the number of same-named siblings strictly
    before the element; the element is identified here by its position i in siblings. -/
def segment_name (siblings : List XmlNode) (i : Nat) : Str :=
  match siblings.get? i with
  | none => []
  | some el =>
    let name := local_name el.tag
    if (siblings.filter (sameName name)).length ≤ 1 then name
    else name ++ '[' :: (natToStr ((siblings.take i).filter (sameName name)).length ++ [']'])

/-- Source: f"{prefix}/{seg}" if prefix else seg. -/
def childPath (pre seg : Str) : Str := if pre.isEmpty then seg else pre ++ '/' :: seg

mutual
/-- Source _leaf_paths. -/
def leaf_paths : XmlNode → Str → List Str
  | .mk _ _ [], pre => [pre]
  | .mk _ _ (c :: cs), pre => leafPathsFor (c :: cs) (c :: cs) 0 pre
def leafPathsFor : List XmlNode → List XmlNode → Nat → Str → List Str
  | _, [], _, _ => []
  | all, c :: rest, i, pre =>
    leaf_paths c (childPath pre (segment_name all i)) ++ leafPathsFor all rest (i + 1) pre
end

/-- Source _split_segment: the effect of re.match(r"^(.+?)\[(\d+)\]$", segment) — a
    final bracket group of one or more digits preceded by a non-empty base. -/
def split_segment (seg : Str) : Str × Option Nat :=
  match seg.reverse with
  | [] => (seg, none)
  | d :: rest =>
    if d = ']' then
      let ds := rest.takeWhile Char.isDigit
      if ds.isEmpty then (seg, none)
      else
        match rest.dropWhile Char.isDigit with
        | [] => (seg, none)
        | u :: pre =>
          if u = '[' then
            if pre.isEmpty then (seg, none) else (pre.reverse, some (digitsVal ds.reverse))
          else (seg, none)
    else (seg, none)

/-- Source: segments = [s for s in path.split("/") if s]. -/
def splitPath (path : Str) : List Str := (splitOnChar '/' path).filter (fun s => !s.isEmpty)

/-- The segment loop of find_node. -/
def findSegs : XmlNode → List Str → Option XmlNode
  | cur, [] => some cur
  | cur, seg :: rest =>
    let ni := split_segment seg
    let cands := cur.children.filter (sameName ni.1)
    match ni.2 with
    | none =>
      match cands with
      | [] => none
      | c :: _ => findSegs c rest
    | some k =>
      match cands.get? k with
      | some c => findSegs c rest
      | none => none

/-- Source find_node. -/
def find_node (data_root : XmlNode) (path : Str) : Option XmlNode :=
  match splitPath path with
  | [] => none
  | s0 :: rest =>
    if local_name data_root.tag = (split_segment s0).1 then findSegs data_root rest else none

/-- Python enumerate over a child list. -/
def enumFrom : Nat → List XmlNode → List (Nat × XmlNode)
  | _, [] => []
  | i, c :: cs => (i, c) :: enumFrom (i + 1) cs

/-- Verification device: find_node's segment loop instrumented to return the identity
    (child-index position) of the node each step selects instead of the node itself. -/
def resolveSegs : XmlNode → List Str → Option (List Nat)
  | _, [] => some []
  | cur, seg :: rest =>
    let ni := split_segment seg
    let cands := (enumFrom 0 cur.children).filter (fun p => sameName ni.1 p.2)
    match ni.2 with
    | none =>
      match cands with
      | [] => none
      | jc :: _ => (resolveSegs jc.2 rest).map (fun tl => jc.1 :: tl)
    | some k =>
      match cands.get? k with
      | some jc => (resolveSegs jc.2 rest).map (fun tl => jc.1 :: tl)
      | none => none

/-- Verification device: find_node instrumented to return node identity (position). -/
def findNodePos (data_root : XmlNode) (path : Str) : Option (List Nat) :=
  match splitPath path with
  | [] => none
  | s0 :: rest =>
    if local_name data_root.tag = (split_segment s0).1 then resolveSegs data_root rest else none

/-- The node sitting at a child-index position. -/
def nodeAt : XmlNode → List Nat → Option XmlNode
  | n, [] => some n
  | n, i :: rest =>
    match n.children.get? i with
    | some c => nodeAt c rest
    | none => none

/-- Functional update of the text of the node at a position (models node.text = value). -/
def updateTextAt : XmlNode → List Nat → Str → XmlNode
  | .mk t _ cs, [], v => .mk t (some v) cs
  | .mk t x cs, i :: rest, v =>
    match cs.get? i with
    | some c => .mk t x (cs.set i (updateTextAt c rest v))
    | none => .mk t x cs

/-- Source get_node_text. -/
def get_node_text (data_root : XmlNode) (path : Str) : Str :=
  match find_node data_root path with
  | none => []
  | some n =>
    match n.text with
    | none => []
    | some t => trimStr t

/-- Source set_node_text: the in-place `node.text = normalize_text(value)` on the node
    found by find_node is modeled as a functional update at that node's identity. -/
def set_node_text (data_root : XmlNode) (path : Str) (value : Str) : XmlNode × Bool :=
  match findNodePos data_root path with
  | none => (data_root, false)
  | some pos => (updateTextAt data_root pos (normalizeStr value), true)

mutual
/-- Verification device: identities (positions) of all leaves, in document order. -/
def leafPositions : XmlNode → List (List Nat)
  | .mk _ _ [] => [[]]
  | .mk _ _ (c :: cs) => leafPositionsFor (c :: cs) 0
def leafPositionsFor : List XmlNode → Nat → List (List Nat)
  | [], _ => []
  | c :: rest, i => (leafPositions c).map (fun pos => i :: pos) ++ leafPositionsFor rest (i + 1)
end

mutual
/-- Number of leaves of a tree (a node with no element children is a leaf). -/
def leafCount : XmlNode → Nat
  | .mk _ _ [] => 1
  | .mk _ _ (c :: cs) => leafCountFor (c :: cs)
def leafCountFor : List XmlNode → Nat
  | [] => 0
  | c :: rest => leafCount c + leafCountFor rest
end

mutual
/-- Verification device: forget all text so that two trees with the same shape (same
    tags, same child structure) become equal. -/
def eraseTexts : XmlNode → XmlNode
  | .mk t _ cs => .mk t none (eraseForest cs)
def eraseForest : List XmlNode → List XmlNode
  | [] => []
  | c :: rest => eraseTexts c :: eraseForest rest
end

/-- Verification device: the disambiguated segments generated along a position. -/
def segsOfPosC : List XmlNode → List Nat → List Str
  | _, [] => []
  | cs, i :: rest =>
    segment_name cs i ::
      (match cs.get? i with
       | some c => segsOfPosC c.children rest
       | none => [])

/-- Verification device: fold childPath over segments, as _leaf_paths accumulates. -/
def joinSegs (pre : Str) (segs : List Str) : Str := segs.foldl childPath pre

/-- Gregorian leap year. -/
def isLeapYear (y : Nat) : Bool := (y % 4 == 0 && y % 100 != 0) || y % 400 == 0

def daysInMonth (y m : Nat) : Nat :=
  if m = 2 then (if isLeapYear y then 29 else 28)
  else if m = 4 ∨ m = 6 ∨ m = 9 ∨ m = 11 then 30 else 31

structure PyDate where
  year : Nat
  month : Nat
  day : Nat

def decDigits? (s : Str) : Option Nat :=
  if !s.isEmpty && s.all Char.isDigit then some (digitsVal s) else none

/-- Models datetime.strptime for one fixed three-field format: each field is a digit
    string and the date must be a valid Gregorian date. -/
def mkDate? (ys ms ds : Str) : Option PyDate :=
  match decDigits? ys, decDigits? ms, decDigits? ds with
  | some y, some m, some d =>
    if 1 ≤ m ∧ m ≤ 12 ∧ 1 ≤ d ∧ d ≤ daysInMonth y m ∧ 1 ≤ y ∧ y ≤ 9999 ∧
        ys.length ≤ 4 ∧ ms.length ≤ 2 ∧ ds.length ≤ 2 then some ⟨y, m, d⟩
    else none
  | _, _, _ => none

def splitDate (c : Char) (s : Str) : Option (Str × Str × Str) :=
  match splitOnChar c s with
  | [a, b, d] => some (a, b, d)
  | _ => none

/-- Source parse_date: tries "%Y-%m-%d", "%d.%m.%Y", "%Y/%m/%d" in that order. -/
def parse_date (value : Option Str) : Option PyDate :=
  let text := normalize_text value
  if text.isEmpty then none
  else
    (match splitDate '-' text with
     | some ymd => mkDate? ymd.1 ymd.2.1 ymd.2.2
     | none => none) <|>
    (match splitDate '.' text with
     | some dmy => mkDate? dmy.2.2 dmy.2.1 dmy.1
     | none => none) <|>
    (match splitDate '/' text with
     | some ymd => mkDate? ymd.1 ymd.2.1 ymd.2.2
     | none => none)

/-- Two-digit zero-padded rendering, as strftime %d / %m. -/
def pad2 (n : Nat) : Str := if n < 10 then '0' :: natToStr n else natToStr n

/-- Four-digit zero-padded rendering, as strftime %Y. -/
def pad4 (n : Nat) : Str := List.replicate (4 - (natToStr n).length) '0' ++ natToStr n

/-- Source format_date. -/
def format_date (value : Option Str) : Str :=
  match parse_date value with
  | some dt => pad2 dt.day ++ '.' :: (pad2 dt.month ++ '.' :: pad4 dt.year)
  | none => normalize_text value

/-- Source format_month_year. -/
def format_month_year (value : Option Str) : Str :=
  match parse_date value with
  | some dt => pad2 dt.month ++ '.' :: pad4 dt.year
  | none => []

/-- Round to the nearest integer with ties to even, the rounding applied by Python
    fixed-point float formatting (floats are modeled as exact rationals). -/
def roundHalfEven (q : ℚ) : ℤ :=
  let f := ⌊q⌋
  let r := q - (f : ℚ)
  if r < 1 / 2 then f
  else if 1 / 2 < r then f + 1
  else if f % 2 = 0 then f else f + 1

def groupRev : Str → Str
  | d1 :: d2 :: d3 :: d4 :: rest => d1 :: d2 :: d3 :: ',' :: groupRev (d4 :: rest)
  | l => l

/-- Digit string of n with "," thousands separators, as the Python format spec ",". -/
def groupDigits (n : Nat) : Str := (groupRev (natToStr n).reverse).reverse

/-- Python f"{number:,.2f}". -/
def formatComma2f (q : ℚ) : Str :=
  let c := roundHalfEven (100 * q)
  (if c < 0 then [ '-' ] else []) ++ groupDigits (c.natAbs / 100) ++ '.' :: pad2 (c.natAbs % 100)

/-- Python str.replace for single characters. -/
def replaceChar (a b : Char) (s : Str) : Str := s.map (fun c => if c = a then b else c)

/-- Source format_euro: f"{number:,.2f}".replace(",", "_").replace(".", ",").replace("_", ".").
    The `float(value or 0)` coercion is applied at the call sites via Option.getD. -/
def format_euro (value : ℚ) : Str :=
  replaceChar '_' '.' (replaceChar '.' ',' (replaceChar ',' '_' (formatComma2f value)))

/-- Python f"{number:.1f}". -/
def format1f (q : ℚ) : Str :=
  let d := roundHalfEven (10 * q)
  (if d < 0 then [ '-' ] else []) ++ natToStr (d.natAbs / 10) ++ '.' :: [digitChar (d.natAbs % 10)]

/-- Source format_percent. -/
def format_percent (value : ℚ) (with_symbol : Bool) : Str :=
  let base := replaceChar '.' ',' (format1f value)
  if with_symbol then base ++ [ ' ', '%' ] else base

def allowedSlugChar (c : Char) : Bool :=
  c.isDigit || decide ( 'a' ≤ c ∧ c ≤ 'z') || decide ( 'A' ≤ c ∧ c ≤ 'Z') ||
    c == '.' || c == '_' || c == '-'

def collapseRunsAux : Bool → Str → Str
  | _, [] => []
  | inRun, c :: rest =>
    if allowedSlugChar c then c :: collapseRunsAux false rest
    else if inRun then collapseRunsAux true rest
    else '_' :: collapseRunsAux true rest

/-- Models re.sub(r"[^a-zA-Z0-9._-]+", "_", text): every maximal run of characters
    outside the allowed set becomes a single underscore. -/
def collapseRuns (s : Str) : Str := collapseRunsAux false s

def dropAround (p : Char → Bool) (s : Str) : Str := ((s.dropWhile p).reverse.dropWhile p).reverse

/-- Source slugify_ascii. The NFKD normalization and combining-mark removal are the
    identity on ASCII input and are modeled as such. -/
def slugify_ascii (value : Str) (fallback : Str) : Str :=
  let raw := if (normalizeStr value).isEmpty then fallback else normalizeStr value
  let cleaned := dropAround (fun c => c == '_') (collapseRuns raw)
  if cleaned.isEmpty then fallback else cleaned

structure WorkPackage where
  nr : Option Str
  title : Option Str
  pm : Option Str

/-- The caller payload. Absent groups behave as empty dicts, so the nested groups
    project/company/funding/computed are flattened into optional fields; numeric JSON
    values are modeled as rationals (None and a missing key both map to none). -/
structure Payload where
  projectName : Option Str
  startDate : Option Str
  endDate : Option Str
  durationMonths : Option Str
  companyName : Option Str
  ratePct : Option ℚ
  surchargePct : Option ℚ
  maxProjectSum : Option ℚ
  personnelCost : Option ℚ
  projectSum : Option ℚ
  fundingSum : Option ℚ
  realSurchargePct : Option ℚ
  verschenkt : Option ℚ
  workPackages : List WorkPackage

/-- Source _contains_any. -/
def contains_any (text : Str) (terms : List Str) : Bool := terms.any (fun t => inStr t text)

def acronymKeywords : List Str :=
  [ "akronym".toList, "projektakronym".toList, "projektname".toList, "kurzbezeichnung".toList]

/-- Source _extract_pdf_acronym. -/
def extract_pdf_acronym (data_root : XmlNode) : List Str → Option Str
  | [] => none
  | path :: rest =>
    let low := lowerStr path
    if contains_any low acronymKeywords then
      let val := get_node_text data_root path
      if val.isEmpty then extract_pdf_acronym data_root rest else some val
    else extract_pdf_acronym data_root rest

/-- The field-to-value dict: a list of (path, value, source) with unique paths. -/
abbrev VMap := List (Str × Str × Str)

/-- Python dict assignment value_map[path] = entry: in-place replacement if the key
    exists (keeping its position), otherwise append. -/
def dictInsert (m : VMap) (k v s : Str) : VMap :=
  match m with
  | [] => [(k, v, s)]
  | e :: rest => if e.1 = k then (k, v, s) :: rest else e :: dictInsert rest k v s

/-- Python dict lookup. -/
def vmLookup (m : VMap) (k : Str) : Option (Str × Str) :=
  match m with
  | [] => none
  | e :: rest => if e.1 = k then some e.2 else vmLookup rest k

/-- with_symbol = "pct" in low or "prozent" in low. -/
def pctSymbol (low : Str) : Bool := inStr "pct".toList low || inStr "prozent".toList low

/-- The ordered fixed-category rule chain of build_field_value_map (lines 229-257):
    given the lowered path, the (source, value) pair of the first matching rule, or
    ("", "") when no rule matches. -/
def fixedRule (payload : Payload) (low : Str) : Str × Str :=
  let project_name := normalize_text payload.projectName
  let company_name := normalize_text payload.companyName
  let startStr := format_date payload.startDate
  let endStr := format_date payload.endDate
  let duration := normalize_text payload.durationMonths
  if inStr "akronym".toList low || inStr "projektname".toList low then
    ( "project.name".toList, project_name)
  else if inStr "firma".toList low || inStr "unternehmensname".toList low then
    ( "company.name".toList, company_name)
  else if contains_any low [ "beginn".toList, "start".toList, "von".toList] then
    ( "project.startDate".toList, startStr)
  else if contains_any low [ "ende".toList, "bis".toList] then
    ( "project.endDate".toList, endStr)
  else if inStr "dauer".toList low then
    ( "project.durationMonths".toList, duration)
  else if inStr "personalkosten".toList low then
    ( "company.computed.personnelCost".toList, format_euro (payload.personnelCost.getD 0))
  else if inStr "projektsumme".toList low then
    ( "company.computed.projectSum".toList, format_euro (payload.projectSum.getD 0))
  else if inStr "foerdersumme".toList low || inStr "fördersumme".toList low then
    ( "company.computed.fundingSum".toList, format_euro (payload.fundingSum.getD 0))
  else if inStr "foerderquote".toList low || inStr "förderquote".toList low then
    ( "company.funding.ratePct".toList, format_percent (payload.ratePct.getD 0) (pctSymbol low))
  else if inStr "zuschlag".toList low || inStr "gemeinkosten".toList low ||
      inStr "zuschlagsfaktor".toList low then
    ( "company.funding.surchargePct".toList, format_percent (payload.surchargePct.getD 0) (pctSymbol low))
  else if inStr "max".toList low &&
      ( inStr "foerder".toList low || inStr "förder".toList low || inStr "projekt".toList low) &&
      ( inStr "summe".toList low || inStr "betrag".toList low) then
    ( "company.funding.maxProjectSum".toList, format_euro (payload.maxProjectSum.getD 0))
  else if inStr "real".toList low && inStr "zuschlag".toList low then
    ( "company.computed.realSurchargePct".toList, format_percent (payload.realSurchargePct.getD 0) (pctSymbol low))
  else if inStr "verschenkt".toList low || inStr "differenz".toList low then
    ( "company.computed.verschenkt".toList, format_euro (payload.verschenkt.getD 0))
  else ([], [])

/-- One iteration of the fixed-category loop of build_field_value_map (lines 224-260). -/
def applyFixed (payload : Payload) (vm : VMap) (path : Str) : VMap :=
  let sv := fixedRule payload (lowerStr path)
  if !sv.1.isEmpty && !(normalizeStr sv.2).isEmpty then dictInsert vm path (normalizeStr sv.2) sv.1
  else vm

/-- The explicit key fragments and values for the work package of 1-based ordinal n1
    (lines 266-270); the values are already normalized there. -/
def wpCandidates (n1 : Nat) (wp : WorkPackage) : List (Str × Str) :=
  [( "ap".toList ++ natToStr n1 ++ "_nr".toList, normalize_text wp.nr),
   ( "ap".toList ++ natToStr n1 ++ "_bezeichnung".toList, normalize_text wp.title),
   ( "ap".toList ++ natToStr n1 ++ "_pm".toList, normalize_text wp.pm)]

/-- Python f"workPackages[{idx}]". -/
def wpSource (idx : Nat) : Str := "workPackages[".toList ++ natToStr idx ++ "]".toList

/-- The inner candidate loop of the work-package pass for one path (lines 273-275). -/
def applyWpPath (idx : Nat) (cands : List (Str × Str)) (vm : VMap) (path : Str) : VMap :=
  let low := lowerStr path
  cands.foldl
    (fun m kv => if inStr kv.1 low && !kv.2.isEmpty then dictInsert m path kv.2 (wpSource idx) else m)
    vm

/-- The work-package pass of build_field_value_map (lines 262-275). -/
def wpPassFrom (paths : List Str) : Nat → List WorkPackage → VMap → VMap
  | _, [], vm => vm
  | idx, wp :: rest, vm =>
    wpPassFrom paths (idx + 1) rest (paths.foldl (applyWpPath idx (wpCandidates (idx + 1) wp)) vm)

/-- Source build_field_value_map: the fixed-category pass followed by the
    work-package pass. -/
def build_field_value_map (payload : Payload) (existing_field_paths : List Str) : VMap :=
  wpPassFrom existing_field_paths 0 payload.workPackages
    (existing_field_paths.foldl (applyFixed payload) [])

/-- Specification device: the last hit (if any) that the candidate loop would score
    against a lowered path, carried over an accumulator. -/
def candHit (idx : Nat) (cands : List (Str × Str)) (low : Str) (acc : Option (Str × Str)) :
    Option (Str × Str) :=
  cands.foldl
    (fun a kv => if inStr kv.1 low && !kv.2.isEmpty then some (kv.2, wpSource idx) else a) acc

/-- Specification device for the amended work-package claim: the last hit among the
    three key fragments of one work package, carried over an accumulator. -/
def wpHitOne (idx : Nat) (wp : WorkPackage) (low : Str) (acc : Option (Str × Str)) :
    Option (Str × Str) :=
  candHit idx (wpCandidates (idx + 1) wp) low acc

/-- Specification device: the last hit over all work packages from a start ordinal. -/
def lastWpHitFrom : Nat → List WorkPackage → Str → Option (Str × Str) → Option (Str × Str)
  | _, [], _, acc => acc
  | idx, wp :: rest, low, acc => lastWpHitFrom (idx + 1) rest low (wpHitOne idx wp low acc)

/-- Specification device: the overall last work-package hit for a path. -/
def lastWpHit (wps : List WorkPackage) (path : Str) : Option (Str × Str) :=
  lastWpHitFrom 0 wps (lowerStr path) none

structure PreviewEntry where
  path : Str
  value : Str
  source : Str
  status : Str

/-- Source build_mapping_preview. -/
def build_mapping_preview (payload : Payload) (existing_field_paths : List Str) :
    List PreviewEntry :=
  let mapped := build_field_value_map payload existing_field_paths
  existing_field_paths.map (fun path =>
    match vmLookup mapped path with
    | some vs => ⟨path, vs.1, vs.2, "willFill".toList⟩
    | none => ⟨path, [], [], "skipped".toList⟩)

/-- Python `s or None`. -/
def strOrNone (s : Str) : Option Str := if s.isEmpty then none else some s

/-- Source load_xfa_context lines 190-191:
    field_paths = _leaf_paths(data_root, local_name(data_root.tag)). -/
def contextFieldPaths (data_root : XmlNode) : List Str :=
  leaf_paths data_root (local_name data_root.tag)

/-- The tri-state mismatch of analyze_pdf lines 310-312: None unless both the extracted
    acronym and the payload project name are truthy (present and non-empty). -/
def mismatchFlag (pdf_acronym : Option Str) (project_name : Option Str) : Option Bool :=
  match pdf_acronym, project_name with
  | some a, some p =>
    if !a.isEmpty && !p.isEmpty then some (decide (caseFold (trimStr a) ≠ caseFold (trimStr p)))
    else none
  | _, _ => none

structure AnalyzeResult where
  isXfa : Bool
  pdfAcronym : Option Str
  projectName : Option Str
  acronymMismatch : Option Bool
  fields : List Str
  mappingPreview : List PreviewEntry

/-- Source analyze_pdf, from the container-adapter boundary: ctx is some data root when
    load_xfa_context found the datasets packet and none otherwise. -/
def analyze_pdf (ctx : Option XmlNode) (payload : Payload) : AnalyzeResult :=
  let project_name := strOrNone (normalize_text payload.projectName)
  match ctx with
  | none => ⟨false, none, project_name, none, [], []⟩
  | some data_root =>
    let field_paths := contextFieldPaths data_root
    let pdf_acronym := extract_pdf_acronym data_root field_paths
    ⟨true, pdf_acronym, project_name, mismatchFlag pdf_acronym project_name,
      field_paths, build_mapping_preview payload field_paths⟩

inductive FillErr where
  | notXfa
  | mismatchNotConfirmed
deriving DecidableEq

structure FillMeta where
  pdfAcronym : Option Str
  projectName : Option Str
  acronymMismatch : Bool
  downloadName : Str
  filledCount : Nat

/-- The boolean mismatch of fill_pdf line 331:
    bool(pdf_acronym and project_name and strip-casefold inequality). -/
def computedMismatch (data_root : XmlNode) (payload : Payload) : Bool :=
  let project_name := normalize_text payload.projectName
  match extract_pdf_acronym data_root (contextFieldPaths data_root) with
  | some a =>
    !a.isEmpty && !project_name.isEmpty && !(caseFold (trimStr a) == caseFold (trimStr project_name))
  | none => false

/-- One iteration of the write loop of fill_pdf lines 338-340: write the mapped value
    into its leaf and count a successful write. -/
def writeStep (acc : XmlNode × Nat) (e : Str × Str × Str) : XmlNode × Nat :=
  let r := set_node_text acc.1 e.1 e.2.1
  (r.1, if r.2 then acc.2 + 1 else acc.2)

/-- The write loop of fill_pdf lines 337-340. -/
def writeAll (root : XmlNode) (vm : VMap) : XmlNode × Nat :=
  vm.foldl writeStep (root, 0)

/-- Source fill_pdf, from the container-adapter boundary: a raised ValueError or
    PermissionError is an error value; the returned XmlNode is the mutated datasets
    tree the adapter re-serializes into the output container bytes. -/
def fill_pdf (ctx : Option XmlNode) (payload : Payload) (confirm_mismatch : Bool) :
    Except FillErr (XmlNode × FillMeta) :=
  match ctx with
  | none => .error .notXfa
  | some data_root =>
    let project_name := normalize_text payload.projectName
    let field_paths := contextFieldPaths data_root
    let pdf_acronym := extract_pdf_acronym data_root field_paths
    let mismatch := computedMismatch data_root payload
    if mismatch && !confirm_mismatch then .error .mismatchNotConfirmed
    else
      let value_map := build_field_value_map payload field_paths
      let wr := writeAll data_root value_map
      let project := slugify_ascii project_name "Projekt".toList
      let company := slugify_ascii (normalize_text payload.companyName) "Unternehmen".toList
      .ok (wr.1,
        ⟨pdf_acronym, strOrNone project_name, mismatch,
          project ++ '_' :: (company ++ "_Mantelbogen.pdf".toList), wr.2⟩)

inductive HttpFillResult where
  | fileResponse (pdf : XmlNode) (filename : Str)
  | conflict (pdfAcronym : Option Str) (projectName : Option Str)
  | badRequest

/-- Source fill_zim_pdf in main.py lines 36-63: a PermissionError becomes a 409 conflict
    response that carries the identities re-read via analyze_pdf on the same bytes, and
    no output bytes; a ValueError becomes a 400; success streams the filled bytes. -/
def fill_zim_pdf (ctx : Option XmlNode) (payload : Payload) (confirmMismatch : Bool) :
    HttpFillResult :=
  match fill_pdf ctx payload confirmMismatch with
  | .error .mismatchNotConfirmed =>
    let preview := analyze_pdf ctx payload
    .conflict preview.pdfAcronym preview.projectName
  | .error .notXfa => .badRequest
  | .ok om =>
    .fileResponse om.1 (if om.2.downloadName.isEmpty then "Mantelbogen.pdf".toList else om.2.downloadName)

/-- Verification device: the keys of the value map, in order. -/
def vmKeys (m : VMap) : List Str := m.map (fun e => e.1)

/-- Verification device: the invariant of every entry of the value map — a non-empty
    normalized value, a non-empty source tag, and a key drawn from the path list. -/
def EntryOK (paths : List Str) (e : Str × Str × Str) : Prop :=
  e.2.1 ≠ [] ∧ normalizeStr e.2.1 = e.2.1 ∧ e.2.2 ≠ [] ∧ e.1 ∈ paths

/-! Concrete instances used by the development: a small datasets tree with an
    acronym field, the payload filled against it, the tree and metadata the fill
    produces, a parent with two same-named children, and the work-package path on
    which the fixed-category mapping is overwritten. -/

def sampleRoot : XmlNode :=
  .mk "formular".toList none
    [ .mk "akronym".toList (some "ABC".toList) [],
      .mk "firma".toList (some "  Fa  ".toList) []]

def samplePayload : Payload :=
  ⟨some "XYZ".toList, none, none, some "12".toList, none,
   none, none, none, none, none, none, none, none,
   [⟨some "1".toList, some "T".toList, some "2".toList⟩]⟩

def sampleFilled : XmlNode :=
  .mk "formular".toList none
    [ .mk "akronym".toList (some "XYZ".toList) [],
      .mk "firma".toList (some "  Fa  ".toList) []]

def sampleMeta : FillMeta :=
  ⟨some "ABC".toList, some "XYZ".toList, true,
   "XYZ_Unternehmen_Mantelbogen.pdf".toList, 1⟩

def dupRoot : XmlNode :=
  .mk "wurzel".toList none
    [ .mk "a".toList (some "x".toList) [], .mk "a".toList (some "y".toList) []]

def cexPath : Str := "wurzel/ap1_nr_dauer".toList

def cexPaths : List Str := [cexPath]

def cexPayload : Payload :=
  ⟨none, none, none, some "12".toList, none,
   none, none, none, none, none, none, none, none,
   [⟨some "1".toList, some "T".toList, some "2".toList⟩]⟩

/-! Lemmas about the string primitives. -/

theorem dropWhile_idem (p : Char → Bool) (l : Str) :
    (l.dropWhile p).dropWhile p = l.dropWhile p := by
  induction l with
  | nil => rfl
  | cons c rest ih =>
    by_cases h : p c = true
    · simp [List.dropWhile_cons, h, ih]
    · simp [List.dropWhile_cons, h]

theorem dropWhile_append_str (p : Char → Bool) (a b : Str) :
    (a ++ b).dropWhile p = if (a.dropWhile p).isEmpty then b.dropWhile p else a.dropWhile p ++ b := by
  induction a with
  | nil => simp
  | cons c rest ih =>
    by_cases h : p c = true
    · simpa [List.dropWhile_cons, h] using ih
    · simp [List.dropWhile_cons, h]

theorem trimLeft_idem (s : Str) : trimLeft (trimLeft s) = trimLeft s := dropWhile_idem _ _

theorem trimRight_idem (s : Str) : trimRight (trimRight s) = trimRight s := by
  simp [trimRight, dropWhile_idem]

theorem trimRight_cons (c : Char) (rest : Str) (h : isWs c = false) :
    trimRight (c :: rest) = c :: trimRight rest := by
  simp only [trimRight, List.reverse_cons]
  rw [dropWhile_append_str]
  by_cases he : (rest.reverse.dropWhile isWs).isEmpty = true
  · simp [he, List.dropWhile_cons, h]
    simpa [List.isEmpty_iff] using he
  · simp [he]

theorem trimLeft_eq_self_head (c : Char) (rest : Str) (h : trimLeft (c :: rest) = c :: rest) :
    isWs c = false := by
  by_contra hws
  simp only [Bool.not_eq_false] at hws
  have h1 : trimLeft (c :: rest) = trimLeft rest := by simp [trimLeft, List.dropWhile_cons, hws]
  have h2 : (trimLeft rest).length ≤ rest.length := (List.dropWhile_sublist _).length_le
  rw [h1] at h
  have := congrArg List.length h
  simp at this
  omega

theorem trimLeft_trimRight_of_fixed (s : Str) (h : trimLeft s = s) :
    trimLeft (trimRight s) = trimRight s := by
  cases s with
  | nil => rfl
  | cons c rest =>
    have hc : isWs c = false := trimLeft_eq_self_head c rest h
    rw [trimRight_cons c rest hc]
    simp [trimLeft, List.dropWhile_cons, hc]

theorem trimStr_idem (s : Str) : trimStr (trimStr s) = trimStr s := by
  show trimRight (trimLeft (trimRight (trimLeft s))) = trimRight (trimLeft s)
  rw [trimLeft_trimRight_of_fixed (trimLeft s) (trimLeft_idem s), trimRight_idem]

theorem normalizeStr_idem (s : Str) : normalizeStr (normalizeStr s) = normalizeStr s :=
  trimStr_idem s

/-! Lemmas about decimal rendering. -/

theorem digitChar_isDigit {n : Nat} (h : n < 10) : (digitChar n).isDigit = true := by
  interval_cases n <;> decide

theorem digitChar_toNat {n : Nat} (h : n < 10) : (digitChar n).toNat = 48 + n := by
  interval_cases n <;> decide

theorem natDigitsAux_digits :
    ∀ fuel n, n < fuel → ∀ c ∈ natDigitsAux fuel n, c.isDigit = true := by
  intro fuel
  induction fuel with
  | zero => intro n hn; omega
  | succ fuel ih =>
    intro n hn c hc
    by_cases h10 : n < 10
    · simp only [natDigitsAux, if_pos h10, List.mem_singleton] at hc
      subst hc; exact digitChar_isDigit h10
    · simp only [natDigitsAux, if_neg h10, List.mem_append, List.mem_singleton] at hc
      rcases hc with hc | hc
      · exact ih (n / 10) (by omega) c hc
      · subst hc; exact digitChar_isDigit (Nat.mod_lt _ (by omega))

theorem natToStr_digits (n : Nat) : ∀ c ∈ natToStr n, c.isDigit = true :=
  natDigitsAux_digits (n + 1) n (Nat.lt_succ_self n)

theorem natDigitsAux_ne_nil : ∀ fuel n, n < fuel → natDigitsAux fuel n ≠ [] := by
  intro fuel
  induction fuel with
  | zero => intro n hn; omega
  | succ fuel ih =>
    intro n hn
    by_cases h10 : n < 10
    · simp [natDigitsAux, h10]
    · simp [natDigitsAux, h10]

theorem natToStr_ne_nil (n : Nat) : natToStr n ≠ [] :=
  natDigitsAux_ne_nil (n + 1) n (Nat.lt_succ_self n)

theorem digitsVal_append_digit (a : Str) (c : Char) :
    digitsVal (a ++ [c]) = 10 * digitsVal a + (c.toNat - 48) := by
  simp [digitsVal, List.foldl_append]

theorem digitsVal_natDigitsAux : ∀ fuel n, n < fuel → digitsVal (natDigitsAux fuel n) = n := by
  intro fuel
  induction fuel with
  | zero => intro n hn; omega
  | succ fuel ih =>
    intro n hn
    by_cases h10 : n < 10
    · simp [natDigitsAux, h10, digitsVal, digitChar_toNat h10]
    · rw [natDigitsAux, if_neg h10, digitsVal_append_digit,
        ih (n / 10) (by omega), digitChar_toNat (Nat.mod_lt _ (by omega))]
      omega

theorem digitsVal_natToStr (n : Nat) : digitsVal (natToStr n) = n :=
  digitsVal_natDigitsAux (n + 1) n (Nat.lt_succ_self n)

theorem natToStr_inj {a b : Nat} (h : natToStr a = natToStr b) : a = b := by
  have := congrArg digitsVal h
  rwa [digitsVal_natToStr, digitsVal_natToStr] at this

theorem isDigit_ne_special {c : Char} (h : c.isDigit = true) :
    c ≠ '/' ∧ c ≠ '[' ∧ c ≠ ']' ∧ c ≠ '}' := by
  refine ⟨?_, ?_, ?_, ?_⟩ <;> rintro rfl <;> simp at h

theorem natToStr_no_special (n : Nat) :
    '/' ∉ natToStr n ∧ '[' ∉ natToStr n ∧ ']' ∉ natToStr n := by
  refine ⟨fun h => ?_, fun h => ?_, fun h => ?_⟩
  · exact absurd (natToStr_digits n _ h) (by decide)
  · exact absurd (natToStr_digits n _ h) (by decide)
  · exact absurd (natToStr_digits n _ h) (by decide)


/-! Lemmas about path splitting. -/

theorem splitOnChar_ne_nil (c : Char) (l : Str) : splitOnChar c l ≠ [] := by
  induction l with
  | nil => simp [splitOnChar]
  | cons x xs ih =>
    by_cases h : x = c
    · simp [splitOnChar, h]
    · simp only [splitOnChar, if_neg h]
      cases hxs : splitOnChar c xs with
      | nil => simp
      | cons s ss => simp

theorem splitOnChar_not_mem (c : Char) (l : Str) (h : c ∉ l) : splitOnChar c l = [l] := by
  induction l with
  | nil => rfl
  | cons x xs ih =>
    have hx : x ≠ c := fun he => h (by simp [he])
    have hxs : c ∉ xs := fun hm => h (List.mem_cons_of_mem _ hm)
    simp [splitOnChar, hx, ih hxs]

theorem splitOnChar_append (c : Char) (a b : Str) :
    splitOnChar c (a ++ c :: b) = splitOnChar c a ++ splitOnChar c b := by
  induction a with
  | nil => simp [splitOnChar]
  | cons x xs ih =>
    by_cases h : x = c
    · simp [splitOnChar, h, ih]
    · have h1 : splitOnChar c ((x :: xs) ++ c :: b) =
          match splitOnChar c (xs ++ c :: b) with
          | [] => [[x]]
          | s :: ss => (x :: s) :: ss := by
        simp [splitOnChar, h]
      rw [h1, ih]
      cases hxs : splitOnChar c xs with
      | nil => exact absurd hxs (splitOnChar_ne_nil c xs)
      | cons s ss =>
        have h2 : splitOnChar c (x :: xs) = (x :: s) :: ss := by simp [splitOnChar, h, hxs]
        simp [h2]

theorem splitPath_append_seg (p s : Str) (hne : s ≠ []) (hns : '/' ∉ s) :
    splitPath (p ++ '/' :: s) = splitPath p ++ [s] := by
  simp only [splitPath, splitOnChar_append, splitOnChar_not_mem '/' s hns, List.filter_append]
  simp [hne]

theorem splitPath_no_sep (s : Str) (hns : '/' ∉ s) :
    splitPath s = if s.isEmpty then [] else [s] := by
  simp only [splitPath, splitOnChar_not_mem '/' s hns]
  cases s with
  | nil => rfl
  | cons x xs => simp [List.filter]

theorem joinSegs_cons (pre s : Str) (segs : List Str) :
    joinSegs pre (s :: segs) = joinSegs (childPath pre s) segs := rfl

theorem childPath_ne_nil (pre s : Str) (h : pre ≠ []) : childPath pre s = pre ++ '/' :: s := by
  simp [childPath, h]

theorem splitPath_joinSegs :
    ∀ (segs : List Str) (pre : Str), pre ≠ [] → (∀ s ∈ segs, s ≠ [] ∧ '/' ∉ s) →
      splitPath (joinSegs pre segs) = splitPath pre ++ segs := by
  intro segs
  induction segs with
  | nil => intro pre _ _; simp [joinSegs]
  | cons s rest ih =>
    intro pre hpre hv
    have hs := hv s (List.mem_cons_self s rest)
    rw [joinSegs_cons, childPath_ne_nil pre s hpre,
      ih (pre ++ '/' :: s) (by simp) (fun x hx => hv x (List.mem_cons_of_mem _ hx)),
      splitPath_append_seg pre s hs.1 hs.2]
    simp

/-! Lemmas about segment parsing. -/

theorem takeWhile_all_append (p : Char → Bool) (a : Str) (b : Char) (t : Str)
    (ha : ∀ x ∈ a, p x = true) (hb : p b = false) :
    (a ++ b :: t).takeWhile p = a ∧ (a ++ b :: t).dropWhile p = b :: t := by
  induction a with
  | nil => simp [List.takeWhile_cons, List.dropWhile_cons, hb]
  | cons x xs ih =>
    have hx : p x = true := ha x (List.mem_cons_self x xs)
    have := ih (fun y hy => ha y (List.mem_cons_of_mem _ hy))
    simp [List.takeWhile_cons, List.dropWhile_cons, hx, this.1, this.2]

theorem split_segment_no_bracket (seg : Str) (h : '[' ∉ seg) :
    split_segment seg = (seg, none) := by
  unfold split_segment
  cases hrev : seg.reverse with
  | nil => rfl
  | cons d rest =>
    by_cases hd : d = ']'
    · subst hd
      have hrest : '[' ∉ rest := by
        intro hm
        exact h (by rw [← List.mem_reverse, hrev]; exact List.mem_cons_of_mem _ hm)
      simp only [if_pos rfl]
      by_cases hds : (rest.takeWhile Char.isDigit).isEmpty = true
      · simp [hds]
      · simp only [hds, Bool.false_eq_true, if_false]
        cases hdrop : rest.dropWhile Char.isDigit with
        | nil => rfl
        | cons u us =>
          have hu : u ∈ rest := by
            have : u ∈ rest.dropWhile Char.isDigit := by
              rw [hdrop]; exact List.mem_cons_self u us
            exact (List.dropWhile_sublist _).mem this
          have hun : ¬(u = '[') := fun he => hrest (he ▸ hu)
          simp [hun]
    · simp [hd]

theorem split_segment_bracket (name : Str) (k : Nat) (hname : name ≠ []) :
    split_segment (name ++ '[' :: (natToStr k ++ [']'])) = (name, some k) := by
  have hrev : (name ++ '[' :: (natToStr k ++ [']'])).reverse
      = ']' :: ((natToStr k).reverse ++ '[' :: name.reverse) := by
    simp [List.reverse_append]
  have hdig : ∀ x ∈ (natToStr k).reverse, x.isDigit = true := by
    intro x hx; exact natToStr_digits k x (List.mem_reverse.mp hx)
  have htd := takeWhile_all_append Char.isDigit (natToStr k).reverse '[' name.reverse hdig (by decide)
  have hne : ((natToStr k).reverse).isEmpty = false := by
    simp [List.isEmpty_iff, natToStr_ne_nil k]
  have hpre : (name.reverse).isEmpty = false := by simp [List.isEmpty_iff, hname]
  unfold split_segment
  rw [hrev]
  simp only [if_pos rfl, htd.1, htd.2, hne, Bool.false_eq_true, if_false]
  simp [hpre, List.reverse_reverse, digitsVal_natToStr]

/-! Lemmas about names, enumeration and sibling selection. -/

theorem validName_spec (s : Str) (h : validName s = true) :
    s ≠ [] ∧ '/' ∉ s ∧ '[' ∉ s := by
  simp only [validName, Bool.and_eq_true, Bool.not_eq_true', decide_eq_false_iff_not] at h
  obtain ⟨⟨h1, h2⟩, h3⟩ := h
  exact ⟨fun he => by simp [he] at h1, h2, h3⟩

theorem enumFrom_mem : ∀ (cs : List XmlNode) (s j : Nat) (c : XmlNode),
    (j, c) ∈ enumFrom s cs → cs.get? (j - s) = some c ∧ s ≤ j := by
  intro cs
  induction cs with
  | nil => simp [enumFrom]
  | cons d rest ih =>
    intro s j c hm
    simp only [enumFrom, List.mem_cons, Prod.mk.injEq] at hm
    rcases hm with ⟨rfl, rfl⟩ | h
    · simp
    · obtain ⟨hget, hle⟩ := ih (s + 1) j c h
      have h1 : j - s = (j - (s + 1)) + 1 := by omega
      rw [h1]
      exact ⟨by simpa using hget, by omega⟩

theorem enumFrom_filter_get (pred : XmlNode → Bool) :
    ∀ (cs : List XmlNode) (s i : Nat) (c : XmlNode),
      cs.get? i = some c → pred c = true →
      ((enumFrom s cs).filter (fun p => pred p.2)).get? (((cs.take i).filter pred).length)
        = some (s + i, c) := by
  intro cs
  induction cs with
  | nil => intro s i c h; simp at h
  | cons d rest ih =>
    intro s i c hget hpred
    cases i with
    | zero =>
      simp only [List.get?] at hget
      injection hget with hget
      subst hget
      simp [enumFrom, List.filter_cons, hpred]
    | succ i' =>
      simp only [List.get?] at hget
      by_cases hd : pred d = true
      · have hstep : (enumFrom s (d :: rest)).filter (fun p => pred p.2)
            = (s, d) :: (enumFrom (s + 1) rest).filter (fun p => pred p.2) := by
          simp [enumFrom, List.filter_cons, hd]
        have hlen : (((d :: rest).take (i' + 1)).filter pred).length
            = ((rest.take i').filter pred).length + 1 := by
          simp [List.take_succ_cons, List.filter_cons, hd]
        rw [hstep, hlen, List.get?_cons_succ, ih (s + 1) i' c hget hpred]
        have : s + 1 + i' = s + (i' + 1) := by omega
        rw [this]
      · have hstep : (enumFrom s (d :: rest)).filter (fun p => pred p.2)
            = (enumFrom (s + 1) rest).filter (fun p => pred p.2) := by
          simp [enumFrom, List.filter_cons, hd]
        have hlen : (((d :: rest).take (i' + 1)).filter pred).length
            = ((rest.take i').filter pred).length := by
          simp [List.take_succ_cons, List.filter_cons, hd]
        rw [hstep, hlen, ih (s + 1) i' c hget hpred]
        have : s + 1 + i' = s + (i' + 1) := by omega
        rw [this]

theorem count_before_zero (pred : XmlNode → Bool) (cs : List XmlNode) (i : Nat) (c : XmlNode)
    (hget : cs.get? i = some c) (hpred : pred c = true)
    (h1 : (cs.filter pred).length ≤ 1) : ((cs.take i).filter pred).length = 0 := by
  obtain ⟨rest, hd⟩ : ∃ rest, cs.drop i = c :: rest := by
    have h0 : (cs.drop i).get? 0 = some c := by
      rw [List.get?_drop]; simpa using hget
    cases hdrop : cs.drop i with
    | nil => rw [hdrop] at h0; simp at h0
    | cons y rest =>
      rw [hdrop] at h0
      simp only [List.get?] at h0
      injection h0 with h0
      exact ⟨rest, by rw [← h0]⟩
  have hsum := congrArg (fun l => (List.filter pred l).length) (List.take_append_drop i cs)
  simp only [List.filter_append, List.length_append, hd, List.filter_cons, hpred,
    if_true, List.length_cons] at hsum
  omega

theorem sameName_self (c : XmlNode) : sameName (local_name c.tag) c = true := by
  simp [sameName]

theorem segment_name_le (cs : List XmlNode) (i : Nat) (c : XmlNode) (hget : cs.get? i = some c)
    (hle : (cs.filter (sameName (local_name c.tag))).length ≤ 1) :
    segment_name cs i = local_name c.tag := by
  unfold segment_name
  rw [hget]
  simp [hle]

theorem segment_name_gt (cs : List XmlNode) (i : Nat) (c : XmlNode) (hget : cs.get? i = some c)
    (hgt : ¬ (cs.filter (sameName (local_name c.tag))).length ≤ 1) :
    segment_name cs i = local_name c.tag ++
      '[' :: (natToStr (((cs.take i).filter (sameName (local_name c.tag))).length) ++ [']']) := by
  unfold segment_name
  rw [hget]
  simp [hgt]

/-! Structural induction for the nested tree type, and tree well-formedness. -/

theorem xmlInd (P : XmlNode → Prop)
    (h : ∀ t x cs, (∀ c ∈ cs, P c) → P (XmlNode.mk t x cs)) : ∀ n, P n
  | XmlNode.mk t x cs => h t x cs (fun c hc => xmlInd P h c)
termination_by n => sizeOf n
decreasing_by
  simp only [XmlNode.mk.sizeOf_spec]
  have := List.sizeOf_lt_of_mem hc
  omega

theorem validForest_mem : ∀ (cs : List XmlNode), validForest cs = true →
    ∀ c ∈ cs, validTree c = true := by
  intro cs
  induction cs with
  | nil => simp
  | cons d rest ih =>
    intro hv c hc
    simp only [validForest, Bool.and_eq_true] at hv
    rcases List.mem_cons.mp hc with rfl | hc
    · exact hv.1
    · exact ih hv.2 c hc

theorem validTree_parts (t : Str) (x : Option Str) (cs : List XmlNode)
    (h : validTree (XmlNode.mk t x cs) = true) :
    validName (local_name t) = true ∧ validForest cs = true := by
  simpa [validTree, Bool.and_eq_true] using h

theorem validTree_name (n : XmlNode) (h : validTree n = true) :
    validName (local_name n.tag) = true := by
  cases n with
  | mk t x cs => exact (validTree_parts t x cs h).1

theorem validTree_child (n : XmlNode) (h : validTree n = true) :
    ∀ c ∈ n.children, validTree c = true := by
  cases n with
  | mk t x cs =>
    intro c hc
    exact validForest_mem cs (validTree_parts t x cs h).2 c hc

/-! The segment generated for a child resolves back to exactly that child. -/

theorem resolveSegs_step (t : Str) (x : Option Str) (cs : List XmlNode) (i : Nat) (c : XmlNode)
    (rest : List Str) (hget : cs.get? i = some c)
    (hvn : validName (local_name c.tag) = true) :
    resolveSegs (XmlNode.mk t x cs) (segment_name cs i :: rest)
      = (resolveSegs c rest).map (fun tl => i :: tl) := by
  have hpred := sameName_self c
  by_cases hle : (cs.filter (sameName (local_name c.tag))).length ≤ 1
  · have hseg := segment_name_le cs i c hget hle
    have hsplit : split_segment (segment_name cs i) = (local_name c.tag, none) := by
      rw [hseg]; exact split_segment_no_bracket _ (validName_spec _ hvn).2.2
    have hzero := count_before_zero (sameName (local_name c.tag)) cs i c hget hpred hle
    have hsel := enumFrom_filter_get (sameName (local_name c.tag)) cs 0 i c hget hpred
    rw [hzero] at hsel
    obtain ⟨tl, htl⟩ : ∃ tl,
        (enumFrom 0 cs).filter (fun p => sameName (local_name c.tag) p.2) = (i, c) :: tl := by
      cases hc2 : (enumFrom 0 cs).filter (fun p => sameName (local_name c.tag) p.2) with
      | nil => rw [hc2] at hsel; simp at hsel
      | cons jc tl =>
        rw [hc2] at hsel
        simp only [List.get?] at hsel
        injection hsel with hsel
        exact ⟨tl, by rw [hsel]; simp⟩
    simp only [resolveSegs, XmlNode.children, hsplit, htl]
  · have hgt := hle
    have hseg := segment_name_gt cs i c hget hle
    have hname := (validName_spec _ hvn).1
    have hsplit : split_segment (segment_name cs i)
        = (local_name c.tag, some (((cs.take i).filter (sameName (local_name c.tag))).length)) := by
      rw [hseg]; exact split_segment_bracket _ _ hname
    have hsel := enumFrom_filter_get (sameName (local_name c.tag)) cs 0 i c hget hpred
    simp only [Nat.zero_add] at hsel
    simp only [resolveSegs, XmlNode.children, hsplit, hsel]

/-! Leaf positions: membership, resolution, correspondence with generated paths. -/

theorem leafPositionsFor_mem : ∀ (rem : List XmlNode) (i : Nat) (pos : List Nat),
    pos ∈ leafPositionsFor rem i →
    ∃ k c tail, rem.get? k = some c ∧ pos = (i + k) :: tail ∧ tail ∈ leafPositions c := by
  intro rem
  induction rem with
  | nil => intro i pos h; simp [leafPositionsFor] at h
  | cons c rest ih =>
    intro i pos h
    simp only [leafPositionsFor, List.mem_append, List.mem_map] at h
    rcases h with ⟨tail, htail, rfl⟩ | h
    · exact ⟨0, c, tail, rfl, by simp, htail⟩
    · obtain ⟨k, c', tail, hget, hpos, htail⟩ := ih (i + 1) pos h
      refine ⟨k + 1, c', tail, by simpa using hget, ?_, htail⟩
      rw [hpos, show i + 1 + k = i + (k + 1) from by omega]

theorem leafPositions_resolve : ∀ n, validTree n = true → ∀ pos ∈ leafPositions n,
    resolveSegs n (segsOfPosC n.children pos) = some pos := by
  refine xmlInd (fun n => validTree n = true → ∀ pos ∈ leafPositions n,
    resolveSegs n (segsOfPosC n.children pos) = some pos) ?_
  intro t x cs IH hval pos hpos
  cases cs with
  | nil =>
    simp only [leafPositions, List.mem_singleton] at hpos
    subst hpos
    simp [segsOfPosC, resolveSegs, XmlNode.children]
  | cons c0 cs0 =>
    simp only [leafPositions] at hpos
    obtain ⟨k, c, tail, hget, rfl, htail⟩ := leafPositionsFor_mem (c0 :: cs0) 0 pos hpos
    simp only [Nat.zero_add]
    have hmem : c ∈ c0 :: cs0 := List.get?_mem hget
    have hvc : validTree c = true := validTree_child _ hval c hmem
    have hvn : validName (local_name c.tag) = true := validTree_name c hvc
    have hseg : segsOfPosC (XmlNode.children (XmlNode.mk t x (c0 :: cs0))) (k :: tail)
        = segment_name (c0 :: cs0) k :: segsOfPosC c.children tail := by
      simp only [XmlNode.children, segsOfPosC]
      rw [hget]
    rw [hseg, resolveSegs_step t x (c0 :: cs0) k c _ hget hvn,
      IH c hmem hvc tail htail]
    rfl

theorem leafPathsFor_eq (all : List XmlNode) : ∀ (rem : List XmlNode) (i : Nat) (pre : Str),
    (∀ k, rem.get? k = all.get? (i + k)) →
    (∀ c ∈ rem, ∀ pre', leaf_paths c pre'
        = (leafPositions c).map (fun pos => joinSegs pre' (segsOfPosC c.children pos))) →
    leafPathsFor all rem i pre
      = (leafPositionsFor rem i).map (fun pos => joinSegs pre (segsOfPosC all pos)) := by
  intro rem
  induction rem with
  | nil => intro i pre _ _; simp [leafPathsFor, leafPositionsFor]
  | cons c rest ih =>
    intro i pre hidx hIH
    have hgi : all.get? i = some c := by simpa using (hidx 0).symm
    simp only [leafPathsFor, leafPositionsFor, List.map_append, List.map_map]
    congr 1
    · rw [hIH c (List.mem_cons_self c rest) (childPath pre (segment_name all i))]
      refine List.map_congr_left (fun pos hpos => ?_)
      have hs : segsOfPosC all (i :: pos) = segment_name all i :: segsOfPosC c.children pos := by
        simp only [segsOfPosC]
        rw [hgi]
      simp only [Function.comp_apply, hs, joinSegs_cons]
    · refine ih (i + 1) pre (fun k => ?_) (fun c' hc' => hIH c' (List.mem_cons_of_mem _ hc'))
      have := hidx (k + 1)
      simpa [show i + (k + 1) = i + 1 + k from by omega] using this

theorem leaf_paths_eq : ∀ (n : XmlNode) (pre : Str),
    leaf_paths n pre = (leafPositions n).map (fun pos => joinSegs pre (segsOfPosC n.children pos)) := by
  refine xmlInd (fun n => ∀ pre, leaf_paths n pre
    = (leafPositions n).map (fun pos => joinSegs pre (segsOfPosC n.children pos))) ?_
  intro t x cs IH pre
  cases cs with
  | nil => simp [leaf_paths, leafPositions, segsOfPosC, joinSegs, XmlNode.children]
  | cons c0 cs0 =>
    simp only [leaf_paths, leafPositions, XmlNode.children]
    exact leafPathsFor_eq (c0 :: cs0) (c0 :: cs0) 0 pre (fun k => by simp) IH

theorem leafPositionsFor_nodup : ∀ (rem : List XmlNode) (i : Nat),
    (∀ c ∈ rem, (leafPositions c).Nodup) → (leafPositionsFor rem i).Nodup := by
  intro rem
  induction rem with
  | nil => intro i _; simp [leafPositionsFor]
  | cons c rest ih =>
    intro i hn
    simp only [leafPositionsFor]
    refine List.Nodup.append ?_ (ih (i + 1) (fun c' hc' => hn c' (List.mem_cons_of_mem _ hc'))) ?_
    · exact (hn c (List.mem_cons_self c rest)).map (fun a b h => by injection h)
    · intro pos h1 h2
      obtain ⟨tail, _, rfl⟩ := List.mem_map.mp h1
      obtain ⟨k, c', tail', _, hpos, _⟩ := leafPositionsFor_mem rest (i + 1) _ h2
      have : i = i + 1 + k := by
        have := congrArg (fun l => l.headI) hpos
        simpa using this
      omega

theorem leafPositions_nodup : ∀ n, (leafPositions n).Nodup := by
  refine xmlInd (fun n => (leafPositions n).Nodup) ?_
  intro t x cs IH
  cases cs with
  | nil => simp [leafPositions]
  | cons c0 cs0 =>
    simp only [leafPositions]
    exact leafPositionsFor_nodup (c0 :: cs0) 0 IH

theorem leafPositionsFor_length : ∀ (rem : List XmlNode) (i : Nat),
    (∀ c ∈ rem, (leafPositions c).length = leafCount c) →
    (leafPositionsFor rem i).length = leafCountFor rem := by
  intro rem
  induction rem with
  | nil => intro i _; simp [leafPositionsFor, leafCountFor]
  | cons c rest ih =>
    intro i hn
    simp only [leafPositionsFor, leafCountFor, List.length_append, List.length_map]
    rw [hn c (List.mem_cons_self c rest),
      ih (i + 1) (fun c' hc' => hn c' (List.mem_cons_of_mem _ hc'))]

theorem leafPositions_length : ∀ n, (leafPositions n).length = leafCount n := by
  refine xmlInd (fun n => (leafPositions n).length = leafCount n) ?_
  intro t x cs IH
  cases cs with
  | nil => simp [leafPositions, leafCount]
  | cons c0 cs0 =>
    simp only [leafPositions, leafCount]
    exact leafPositionsFor_length (c0 :: cs0) 0 IH

/-! Agreement between find_node and its position-instrumented variant. -/

theorem enumFrom_filter_map_snd (pred : XmlNode → Bool) :
    ∀ (cs : List XmlNode) (s : Nat),
      ((enumFrom s cs).filter (fun p => pred p.2)).map Prod.snd = cs.filter pred := by
  intro cs
  induction cs with
  | nil => intro s; rfl
  | cons d rest ih =>
    intro s
    by_cases hd : pred d = true
    · simp [enumFrom, List.filter_cons, hd, ih (s + 1)]
    · simp [enumFrom, List.filter_cons, hd, ih (s + 1)]

theorem findSegs_eq : ∀ (segs : List Str) (cur : XmlNode),
    findSegs cur segs = (resolveSegs cur segs).bind (nodeAt cur) := by
  intro segs
  induction segs with
  | nil => intro cur; simp [findSegs, resolveSegs, nodeAt]
  | cons seg rest ih =>
    intro cur
    have hsnd := enumFrom_filter_map_snd (sameName (split_segment seg).1) cur.children 0
    simp only [findSegs, resolveSegs]
    cases hni : (split_segment seg).2 with
    | none =>
      simp only []
      cases hcands :
          (enumFrom 0 cur.children).filter (fun p => sameName (split_segment seg).1 p.2) with
      | nil =>
        rw [← hsnd, hcands]
        simp
      | cons jc tl =>
        rw [← hsnd, hcands]
        have hmem : (jc.1, jc.2) ∈ enumFrom 0 cur.children := by
          have hjc : jc ∈ (enumFrom 0 cur.children).filter
              (fun p => sameName (split_segment seg).1 p.2) := by
            rw [hcands]; exact List.mem_cons_self _ _
          have := (List.mem_filter.mp hjc).1
          simpa using this
        have hget : cur.children[jc.1]? = some jc.2 := by
          rw [← List.get?_eq_getElem?]
          have := enumFrom_mem cur.children 0 jc.1 jc.2 hmem
          simpa using this.1
        simp only [List.map_cons]
        rw [ih jc.2]
        cases hr : resolveSegs jc.2 rest with
        | none => simp
        | some tail => simp [nodeAt, hget]
    | some k =>
      simp only []
      cases hk : ((enumFrom 0 cur.children).filter
          (fun p => sameName (split_segment seg).1 p.2)).get? k with
      | none =>
        have hthis : (cur.children.filter (sameName (split_segment seg).1)).get? k = none := by
          rw [← hsnd, List.get?_map, hk]; rfl
        rw [hthis]
        rfl
      | some jc =>
        have hcget : (cur.children.filter (sameName (split_segment seg).1)).get? k
            = some jc.2 := by
          rw [← hsnd, List.get?_map, hk]; rfl
        rw [hcget]
        simp only []
        have hmem : (jc.1, jc.2) ∈ enumFrom 0 cur.children := by
          have hjc := List.get?_mem hk
          have := (List.mem_filter.mp hjc).1
          simpa using this
        have hget : cur.children[jc.1]? = some jc.2 := by
          rw [← List.get?_eq_getElem?]
          have := enumFrom_mem cur.children 0 jc.1 jc.2 hmem
          simpa using this.1
        rw [ih jc.2]
        cases hr : resolveSegs jc.2 rest with
        | none => simp
        | some tail => simp [nodeAt, hget]

theorem find_node_eq (data_root : XmlNode) (path : Str) :
    find_node data_root path = (findNodePos data_root path).bind (nodeAt data_root) := by
  unfold find_node findNodePos
  cases splitPath path with
  | nil => rfl
  | cons s0 rest =>
    by_cases h : local_name data_root.tag = (split_segment s0).1
    · simp [h, findSegs_eq]
    · simp [h]

theorem nodeAt_leafpos : ∀ n (pos : List Nat), pos ∈ leafPositions n →
    (nodeAt n pos).isSome = true := by
  refine xmlInd (fun n => ∀ pos, pos ∈ leafPositions n → (nodeAt n pos).isSome = true) ?_
  intro t x cs IH pos hpos
  cases cs with
  | nil =>
    simp only [leafPositions, List.mem_singleton] at hpos
    subst hpos
    simp [nodeAt]
  | cons c0 cs0 =>
    simp only [leafPositions] at hpos
    obtain ⟨k, c, tail, hget, rfl, htail⟩ := leafPositionsFor_mem (c0 :: cs0) 0 pos hpos
    simp only [Nat.zero_add]
    have hmem : c ∈ c0 :: cs0 := List.get?_mem hget
    simp only [nodeAt, XmlNode.children]
    rw [hget]
    exact IH c hmem tail htail

/-! Text erasure: all structural functions are insensitive to node text. -/

theorem eraseForest_eq_map : ∀ cs : List XmlNode, eraseForest cs = cs.map eraseTexts := by
  intro cs
  induction cs with
  | nil => rfl
  | cons c rest ih => simp [eraseForest, ih]

theorem eraseTexts_tag (n : XmlNode) : (eraseTexts n).tag = n.tag := by
  cases n with
  | mk t x cs => simp [eraseTexts, XmlNode.tag]

theorem eraseTexts_children (n : XmlNode) :
    (eraseTexts n).children = n.children.map eraseTexts := by
  cases n with
  | mk t x cs => simp [eraseTexts, XmlNode.children, eraseForest_eq_map]

theorem enumFrom_map (f : XmlNode → XmlNode) :
    ∀ (cs : List XmlNode) (s : Nat),
      enumFrom s (cs.map f) = (enumFrom s cs).map (fun p => (p.1, f p.2)) := by
  intro cs
  induction cs with
  | nil => intro s; rfl
  | cons c rest ih => intro s; simp [enumFrom, ih (s + 1)]

theorem filter_map_pair {α β : Type} (g : α → β) (q : β → Bool) (l : List α) :
    (l.map g).filter q = (l.filter (fun a => q (g a))).map g := by
  induction l with
  | nil => rfl
  | cons a rest ih =>
    by_cases h : q (g a) = true
    · simp [List.filter_cons, h, ih]
    · simp [List.filter_cons, h, ih]

theorem sameName_erase (nm : Str) (c : XmlNode) :
    sameName nm (eraseTexts c) = sameName nm c := by
  simp [sameName, eraseTexts_tag]

theorem resolveSegs_erase : ∀ (segs : List Str) (n : XmlNode),
    resolveSegs (eraseTexts n) segs = resolveSegs n segs := by
  intro segs
  induction segs with
  | nil => intro n; simp [resolveSegs]
  | cons seg rest ih =>
    intro n
    have hch : (eraseTexts n).children = n.children.map eraseTexts := eraseTexts_children n
    have hcands : (enumFrom 0 (eraseTexts n).children).filter
          (fun p => sameName (split_segment seg).1 p.2)
        = ((enumFrom 0 n.children).filter (fun p => sameName (split_segment seg).1 p.2)).map
            (fun p => (p.1, eraseTexts p.2)) := by
      rw [hch, enumFrom_map, filter_map_pair]
      congr 1
      refine List.filter_congr (fun p _ => ?_)
      simp [sameName_erase]
    simp only [resolveSegs, hcands]
    cases hni : (split_segment seg).2 with
    | none =>
      simp only []
      cases hc : (enumFrom 0 n.children).filter (fun p => sameName (split_segment seg).1 p.2) with
      | nil => simp
      | cons jc tl => simp [ih jc.2]
    | some k =>
      simp only [List.get?_map]
      cases hk : ((enumFrom 0 n.children).filter
          (fun p => sameName (split_segment seg).1 p.2)).get? k with
      | none => simp
      | some jc => simp [ih jc.2]

theorem findNodePos_erase (n : XmlNode) (p : Str) :
    findNodePos (eraseTexts n) p = findNodePos n p := by
  unfold findNodePos
  cases splitPath p with
  | nil => rfl
  | cons s0 rest =>
    rw [eraseTexts_tag]
    by_cases h : local_name n.tag = (split_segment s0).1
    · simp [h, resolveSegs_erase]
    · simp [h]

theorem nodeAt_erase : ∀ (pos : List Nat) (n : XmlNode),
    nodeAt (eraseTexts n) pos = (nodeAt n pos).map eraseTexts := by
  intro pos
  induction pos with
  | nil => intro n; simp [nodeAt]
  | cons i rest ih =>
    intro n
    simp only [nodeAt, eraseTexts_children, List.get?_eq_getElem?, List.getElem?_map]
    cases hg : n.children[i]? with
    | none => simp
    | some c => simp [ih c]

theorem segment_name_erase : ∀ (cs : List XmlNode) (i : Nat),
    segment_name (cs.map eraseTexts) i = segment_name cs i := by
  intro cs i
  unfold segment_name
  rw [List.get?_map]
  cases hg : cs.get? i with
  | none => rfl
  | some c =>
    simp only [Option.map_some']
    rw [eraseTexts_tag]
    have hf : ∀ ds : List XmlNode, (ds.map eraseTexts).filter (sameName (local_name c.tag))
        = (ds.filter (sameName (local_name c.tag))).map eraseTexts := by
      intro ds
      rw [filter_map_pair]
      congr 1
      exact List.filter_congr (fun a _ => sameName_erase _ a)
    rw [hf, ← List.map_take, hf]
    simp

theorem leafPositionsFor_map_erase : ∀ (rem : List XmlNode) (i : Nat),
    (∀ c ∈ rem, leafPositions (eraseTexts c) = leafPositions c) →
    leafPositionsFor (rem.map eraseTexts) i = leafPositionsFor rem i := by
  intro rem
  induction rem with
  | nil => intro i _; rfl
  | cons c rest ih =>
    intro i hIH
    simp only [List.map_cons, leafPositionsFor]
    rw [hIH c (List.mem_cons_self c rest),
      ih (i + 1) (fun c' hc' => hIH c' (List.mem_cons_of_mem _ hc'))]

theorem leafPositions_erase : ∀ n : XmlNode, leafPositions (eraseTexts n) = leafPositions n := by
  refine xmlInd (fun n => leafPositions (eraseTexts n) = leafPositions n) ?_
  intro t x cs IH
  cases cs with
  | nil => rfl
  | cons c0 cs0 =>
    show leafPositions (XmlNode.mk t none (eraseForest (c0 :: cs0))) = _
    rw [eraseForest_eq_map]
    simp only [List.map_cons, leafPositions]
    have := leafPositionsFor_map_erase (c0 :: cs0) 0 IH
    simpa using this

theorem segsOfPosC_erase : ∀ (pos : List Nat) (cs : List XmlNode),
    segsOfPosC (cs.map eraseTexts) pos = segsOfPosC cs pos := by
  intro pos
  induction pos with
  | nil => intro cs; rfl
  | cons i rest ih =>
    intro cs
    simp only [segsOfPosC, segment_name_erase, List.get?_map]
    cases hg : cs.get? i with
    | none => rfl
    | some c =>
      simp only [Option.map_some']
      rw [eraseTexts_children, ih c.children]

theorem leaf_paths_erase (n : XmlNode) (pre : Str) :
    leaf_paths (eraseTexts n) pre = leaf_paths n pre := by
  rw [leaf_paths_eq, leaf_paths_eq, leafPositions_erase]
  refine List.map_congr_left (fun pos _ => ?_)
  rw [eraseTexts_children, segsOfPosC_erase]

theorem contextFieldPaths_erase (n : XmlNode) :
    contextFieldPaths (eraseTexts n) = contextFieldPaths n := by
  unfold contextFieldPaths
  rw [eraseTexts_tag, leaf_paths_erase]

/-! Functional text update: effect on reads, and identity when rewriting equal text. -/

theorem set_get_self : ∀ (l : List XmlNode) (i : Nat) (a : XmlNode),
    l.get? i = some a → l.set i a = l := by
  intro l
  induction l with
  | nil => intro i a h; simp at h
  | cons c rest ih =>
    intro i a h
    cases i with
    | zero =>
      simp only [List.get?] at h
      injection h with h
      rw [← h]
      rfl
    | succ i' =>
      simp only [List.get?] at h
      simp [List.set, ih i' a h]

theorem updateTextAt_erase : ∀ (pos : List Nat) (n : XmlNode) (v : Str),
    eraseTexts (updateTextAt n pos v) = eraseTexts n := by
  intro pos
  induction pos with
  | nil =>
    intro n v
    cases n with
    | mk t x cs => simp [updateTextAt, eraseTexts]
  | cons i rest ih =>
    intro n v
    cases n with
    | mk t x cs =>
      simp only [updateTextAt]
      cases hg : cs.get? i with
      | none => rfl
      | some c =>
        simp only [eraseTexts]
        congr 1
        rw [eraseForest_eq_map, eraseForest_eq_map, List.map_set, ih c v]
        refine set_get_self _ _ _ ?_
        rw [List.get?_map, hg]
        rfl

theorem nodeAt_update_same : ∀ (pos : List Nat) (n : XmlNode) (v : Str) (m : XmlNode),
    nodeAt n pos = some m →
    nodeAt (updateTextAt n pos v) pos = some (XmlNode.mk m.tag (some v) m.children) := by
  intro pos
  induction pos with
  | nil =>
    intro n v m h
    simp only [nodeAt] at h
    injection h with h
    subst h
    cases n with
    | mk t x cs => simp [updateTextAt, nodeAt, XmlNode.tag, XmlNode.children]
  | cons i rest ih =>
    intro n v m h
    cases n with
    | mk t x cs =>
      simp only [nodeAt, XmlNode.children] at h
      cases hg : cs.get? i with
      | none => rw [hg] at h; simp at h
      | some c =>
        rw [hg] at h
        have hlt : i < cs.length := by
          by_contra hge
          rw [List.get?_eq_none.mpr (by omega)] at hg
          simp at hg
        simp only [updateTextAt, hg, nodeAt, XmlNode.children]
        rw [List.get?_set_eq_of_lt _ hlt]
        exact ih c v m h

theorem nodeAt_update_other : ∀ (posW pos : List Nat) (n : XmlNode) (v : Str),
    pos ≠ posW →
    (nodeAt (updateTextAt n posW v) pos).map XmlNode.text
      = (nodeAt n pos).map XmlNode.text := by
  intro posW
  induction posW with
  | nil =>
    intro pos n v hne
    cases pos with
    | nil => exact absurd rfl hne
    | cons i rest =>
      cases n with
      | mk t x cs => simp [updateTextAt, nodeAt, XmlNode.children]
  | cons j restW ih =>
    intro pos n v hne
    cases n with
    | mk t x cs =>
      simp only [updateTextAt]
      cases hg : cs.get? j with
      | none => rfl
      | some c =>
        cases pos with
        | nil => simp [nodeAt, XmlNode.text]
        | cons i rest =>
          simp only [nodeAt, XmlNode.children]
          by_cases hij : i = j
          · subst hij
            have hlt : i < cs.length := by
              by_contra hge
              rw [List.get?_eq_none.mpr (by omega)] at hg
              simp at hg
            rw [List.get?_set_eq_of_lt _ hlt, hg]
            have hrest : rest ≠ restW := fun he => hne (by rw [he])
            exact ih rest c v hrest
          · rw [List.get?_set_ne _ _ (fun he => hij he.symm)]

theorem updateTextAt_id : ∀ (pos : List Nat) (n : XmlNode) (v : Str) (m : XmlNode),
    nodeAt n pos = some m → m.text = some v → updateTextAt n pos v = n := by
  intro pos
  induction pos with
  | nil =>
    intro n v m h ht
    simp only [nodeAt] at h
    injection h with h
    subst h
    cases n with
    | mk t x cs =>
      simp only [XmlNode.text] at ht
      simp [updateTextAt, ht]
  | cons i rest ih =>
    intro n v m h ht
    cases n with
    | mk t x cs =>
      simp only [nodeAt, XmlNode.children] at h
      cases hg : cs.get? i with
      | none => rw [hg] at h; simp at h
      | some c =>
        rw [hg] at h
        simp only [updateTextAt, hg]
        rw [ih c v m h ht, set_get_self cs i c hg]

/-! Validity of generated segments and full-path resolution. -/

theorem segment_name_valid (cs : List XmlNode) (i : Nat) (c : XmlNode)
    (hget : cs.get? i = some c) (hvn : validName (local_name c.tag) = true) :
    segment_name cs i ≠ [] ∧ '/' ∉ segment_name cs i := by
  obtain ⟨hne, hns, hnb⟩ := validName_spec _ hvn
  by_cases hle : (cs.filter (sameName (local_name c.tag))).length ≤ 1
  · rw [segment_name_le cs i c hget hle]; exact ⟨hne, hns⟩
  · rw [segment_name_gt cs i c hget hle]
    constructor
    · simp [hne]
    · intro hm
      rcases List.mem_append.mp hm with hm1 | hm2
      · exact hns hm1
      · rcases List.mem_cons.mp hm2 with he | hm3
        · exact absurd he (by decide)
        · rcases List.mem_append.mp hm3 with hm4 | hm5
          · exact (natToStr_no_special _).1 hm4
          · simp only [List.mem_singleton] at hm5
            exact absurd hm5 (by decide)

theorem segsOfPos_valid : ∀ n : XmlNode, validTree n = true → ∀ pos ∈ leafPositions n,
    ∀ s ∈ segsOfPosC n.children pos, s ≠ [] ∧ '/' ∉ s := by
  refine xmlInd (fun n => validTree n = true → ∀ pos ∈ leafPositions n,
    ∀ s ∈ segsOfPosC n.children pos, s ≠ [] ∧ '/' ∉ s) ?_
  intro t x cs IH hval pos hpos s hs
  cases cs with
  | nil =>
    simp only [leafPositions, List.mem_singleton] at hpos
    subst hpos
    simp [segsOfPosC, XmlNode.children] at hs
  | cons c0 cs0 =>
    simp only [leafPositions] at hpos
    obtain ⟨k, c, tail, hget, rfl, htail⟩ := leafPositionsFor_mem (c0 :: cs0) 0 pos hpos
    simp only [Nat.zero_add] at hs
    have hmem : c ∈ c0 :: cs0 := List.get?_mem hget
    have hvc : validTree c = true := validTree_child _ hval c hmem
    have hvn : validName (local_name c.tag) = true := validTree_name c hvc
    simp only [segsOfPosC, XmlNode.children] at hs
    rw [hget] at hs
    rcases List.mem_cons.mp hs with rfl | hs2
    · exact segment_name_valid (c0 :: cs0) k c hget hvn
    · exact IH c hmem hvc tail htail s hs2

theorem findNodePos_leaf (n : XmlNode) (hv : validTree n = true) (pos : List Nat)
    (hpos : pos ∈ leafPositions n) :
    findNodePos n (joinSegs (local_name n.tag) (segsOfPosC n.children pos)) = some pos := by
  have hvn := validTree_name n hv
  obtain ⟨hne, hns, hnb⟩ := validName_spec _ hvn
  have hsegs := segsOfPos_valid n hv pos hpos
  have hsplit : splitPath (joinSegs (local_name n.tag) (segsOfPosC n.children pos))
      = local_name n.tag :: segsOfPosC n.children pos := by
    rw [splitPath_joinSegs _ _ hne hsegs, splitPath_no_sep _ hns]
    simp [hne]
  unfold findNodePos
  rw [hsplit]
  simp only []
  rw [split_segment_no_bracket _ hnb]
  simp [leafPositions_resolve n hv pos hpos]

theorem path_resolves (n : XmlNode) (hv : validTree n = true) (p : Str)
    (hp : p ∈ contextFieldPaths n) :
    ∃ pos ∈ leafPositions n,
      p = joinSegs (local_name n.tag) (segsOfPosC n.children pos) ∧ findNodePos n p = some pos := by
  unfold contextFieldPaths at hp
  rw [leaf_paths_eq] at hp
  obtain ⟨pos, hpos, rfl⟩ := List.mem_map.mp hp
  exact ⟨pos, hpos, rfl, findNodePos_leaf n hv pos hpos⟩

theorem findNodePos_inj (n : XmlNode) (hv : validTree n = true) (p q : Str)
    (hp : p ∈ contextFieldPaths n) (hq : q ∈ contextFieldPaths n) (hne : p ≠ q) :
    findNodePos n p ≠ findNodePos n q := by
  obtain ⟨pos, _, hpe, hpr⟩ := path_resolves n hv p hp
  obtain ⟨pos', _, hqe, hqr⟩ := path_resolves n hv q hq
  rw [hpr, hqr]
  intro he
  injection he with he
  exact hne (by rw [hpe, hqe, he])

/-! Dict-semantics lemmas for the value map. -/

theorem mem_dictInsert : ∀ (m : VMap) (k v s : Str) (e : Str × Str × Str),
    e ∈ dictInsert m k v s → e = (k, v, s) ∨ e ∈ m := by
  intro m k v s
  induction m with
  | nil => intro e he; simpa [dictInsert] using he
  | cons e0 rest ih =>
    intro e he
    by_cases h : e0.1 = k
    · simp only [dictInsert, if_pos h, List.mem_cons] at he
      rcases he with rfl | he
      · exact Or.inl rfl
      · exact Or.inr (List.mem_cons_of_mem _ he)
    · simp only [dictInsert, if_neg h, List.mem_cons] at he
      rcases he with rfl | he
      · exact Or.inr (List.mem_cons_self _ _)
      · rcases ih e he with h1 | h1
        · exact Or.inl h1
        · exact Or.inr (List.mem_cons_of_mem _ h1)

theorem vmLookup_dictInsert_self : ∀ (m : VMap) (k v s : Str),
    vmLookup (dictInsert m k v s) k = some (v, s) := by
  intro m k v s
  induction m with
  | nil => simp [dictInsert, vmLookup]
  | cons e0 rest ih =>
    by_cases h : e0.1 = k
    · simp [dictInsert, h, vmLookup]
    · simp [dictInsert, h, vmLookup, ih]

theorem vmLookup_dictInsert_other : ∀ (m : VMap) (k v s k' : Str), k' ≠ k →
    vmLookup (dictInsert m k v s) k' = vmLookup m k' := by
  intro m k v s k' hne
  induction m with
  | nil =>
    have h1 : ¬ k = k' := fun he => hne he.symm
    simp [dictInsert, vmLookup, h1]
  | cons e0 rest ih =>
    by_cases h : e0.1 = k
    · have h1 : ¬ k = k' := fun he => hne he.symm
      have h2 : ¬ e0.1 = k' := by rw [h]; exact h1
      simp [dictInsert, h, vmLookup, h1, h2]
    · by_cases h2 : e0.1 = k'
      · simp [dictInsert, h, vmLookup, h2, hne]
      · simp [dictInsert, h, vmLookup, h2, ih]

theorem vmKeys_dictInsert_mem : ∀ (m : VMap) (k v s a : Str),
    a ∈ vmKeys (dictInsert m k v s) → a = k ∨ a ∈ vmKeys m := by
  intro m k v s a
  induction m with
  | nil => intro h; simpa [dictInsert, vmKeys] using h
  | cons e0 rest ih =>
    intro h
    by_cases he : e0.1 = k
    · simp only [dictInsert, if_pos he, vmKeys, List.map_cons, List.mem_cons] at h
      rcases h with rfl | h
      · exact Or.inl rfl
      · exact Or.inr (by simp [vmKeys, List.mem_cons]; right; simpa [vmKeys] using h)
    · simp only [dictInsert, if_neg he, vmKeys, List.map_cons, List.mem_cons] at h
      rcases h with rfl | h
      · exact Or.inr (by simp [vmKeys])
      · rcases ih (by simpa [vmKeys] using h) with h1 | h1
        · exact Or.inl h1
        · exact Or.inr (by simp [vmKeys] at h1 ⊢; tauto)

theorem vmKeys_dictInsert_nodup : ∀ (m : VMap) (k v s : Str),
    (vmKeys m).Nodup → (vmKeys (dictInsert m k v s)).Nodup := by
  intro m k v s
  induction m with
  | nil => intro _; simp [dictInsert, vmKeys]
  | cons e0 rest ih =>
    intro hn
    simp only [vmKeys, List.map_cons, List.nodup_cons] at hn
    by_cases he : e0.1 = k
    · simp only [dictInsert, if_pos he, vmKeys, List.map_cons, List.nodup_cons]
      exact ⟨by rw [← he]; simpa [vmKeys] using hn.1, by simpa [vmKeys] using hn.2⟩
    · simp only [dictInsert, if_neg he, vmKeys, List.map_cons, List.nodup_cons]
      refine ⟨fun hm => ?_, by simpa [vmKeys] using ih (by simpa [vmKeys] using hn.2)⟩
      rcases vmKeys_dictInsert_mem rest k v s e0.1 (by simpa [vmKeys] using hm) with h1 | h1
      · exact he h1
      · exact hn.1 (by simpa [vmKeys] using h1)

theorem vmLookup_mem : ∀ (m : VMap) (k : Str) (r : Str × Str),
    vmLookup m k = some r → (k, r.1, r.2) ∈ m := by
  intro m k r
  induction m with
  | nil => intro h; simp [vmLookup] at h
  | cons e0 rest ih =>
    intro h
    by_cases he : e0.1 = k
    · simp only [vmLookup, if_pos he] at h
      injection h with h
      subst h
      subst he
      simp
    · simp only [vmLookup, if_neg he] at h
      exact List.mem_cons_of_mem _ (ih h)

theorem vmLookup_of_mem : ∀ (m : VMap) (k v s : Str),
    (vmKeys m).Nodup → (k, v, s) ∈ m → vmLookup m k = some (v, s) := by
  intro m k v s
  induction m with
  | nil => intro _ h; simp at h
  | cons e0 rest ih =>
    intro hn hm
    simp only [vmKeys, List.map_cons, List.nodup_cons] at hn
    rcases List.mem_cons.mp hm with rfl | hm2
    · simp [vmLookup]
    · have hke : ¬ e0.1 = k := by
        intro he
        exact hn.1 (by rw [he]; exact List.mem_map.mpr ⟨(k, v, s), hm2, rfl⟩)
      simp only [vmLookup, if_neg hke]
      exact ih (by simpa [vmKeys] using hn.2) hm2

/-! Invariants of the value map produced by build_field_value_map. -/

theorem wpSource_ne_nil (idx : Nat) : wpSource idx ≠ [] := by
  simp [wpSource]

theorem normalize_text_norm (v : Option Str) : normalizeStr (normalize_text v) = normalize_text v :=
  normalizeStr_idem _

theorem wpCandidates_norm (n1 : Nat) (wp : WorkPackage) :
    ∀ kv ∈ wpCandidates n1 wp, normalizeStr kv.2 = kv.2 := by
  intro kv hkv
  simp only [wpCandidates, List.mem_cons] at hkv
  rcases hkv with rfl | rfl | rfl | hkv
  · exact normalize_text_norm _
  · exact normalize_text_norm _
  · exact normalize_text_norm _
  · simp at hkv

theorem applyFixed_inv (payload : Payload) (allPaths : List Str) (vm : VMap) (path : Str)
    (hpath : path ∈ allPaths) (hvm : ∀ e ∈ vm, EntryOK allPaths e) :
    ∀ e ∈ applyFixed payload vm path, EntryOK allPaths e := by
  intro e he
  simp only [applyFixed] at he
  split at he
  · rcases mem_dictInsert _ _ _ _ _ he with rfl | he2
    · rename_i hc
      simp only [Bool.and_eq_true, Bool.not_eq_true'] at hc
      exact ⟨by simpa [List.isEmpty_iff] using hc.2, normalizeStr_idem _,
        by simpa [List.isEmpty_iff] using hc.1, hpath⟩
    · exact hvm e he2
  · exact hvm e he

theorem foldl_applyFixed_inv (payload : Payload) (allPaths : List Str) :
    ∀ (ps : List Str) (vm : VMap), (∀ p ∈ ps, p ∈ allPaths) →
      (∀ e ∈ vm, EntryOK allPaths e) →
      ∀ e ∈ ps.foldl (applyFixed payload) vm, EntryOK allPaths e := by
  intro ps
  induction ps with
  | nil => intro vm _ hvm; exact hvm
  | cons p rest ih =>
    intro vm hps hvm
    simp only [List.foldl_cons]
    exact ih (applyFixed payload vm p) (fun q hq => hps q (List.mem_cons_of_mem _ hq))
      (applyFixed_inv payload allPaths vm p (hps p (List.mem_cons_self _ _)) hvm)

theorem applyWpPath_inv (idx : Nat) (allPaths : List Str) (path : Str)
    (hpath : path ∈ allPaths) :
    ∀ (cands : List (Str × Str)) (vm : VMap),
      (∀ kv ∈ cands, normalizeStr kv.2 = kv.2) →
      (∀ e ∈ vm, EntryOK allPaths e) →
      ∀ e ∈ applyWpPath idx cands vm path, EntryOK allPaths e := by
  intro cands
  induction cands with
  | nil => intro vm _ hvm; exact hvm
  | cons kv rest ih =>
    intro vm hc hvm
    simp only [applyWpPath, List.foldl_cons]
    have hstep : ∀ e ∈ (if inStr kv.1 (lowerStr path) && !kv.2.isEmpty
        then dictInsert vm path kv.2 (wpSource idx) else vm), EntryOK allPaths e := by
      intro e he
      split at he
      · rcases mem_dictInsert _ _ _ _ _ he with rfl | he2
        · rename_i hcond
          simp only [Bool.and_eq_true, Bool.not_eq_true'] at hcond
          exact ⟨by simpa [List.isEmpty_iff] using hcond.2,
            hc kv (List.mem_cons_self _ _), wpSource_ne_nil idx, hpath⟩
        · exact hvm e he2
      · exact hvm e he
    exact ih _ (fun kv' hkv' => hc kv' (List.mem_cons_of_mem _ hkv')) hstep

theorem foldl_applyWpPath_inv (idx : Nat) (allPaths : List Str)
    (cands : List (Str × Str)) (hcands : ∀ kv ∈ cands, normalizeStr kv.2 = kv.2) :
    ∀ (ps : List Str) (vm : VMap), (∀ p ∈ ps, p ∈ allPaths) →
      (∀ e ∈ vm, EntryOK allPaths e) →
      ∀ e ∈ ps.foldl (applyWpPath idx cands) vm, EntryOK allPaths e := by
  intro ps
  induction ps with
  | nil => intro vm _ hvm; exact hvm
  | cons p rest ih =>
    intro vm hps hvm
    simp only [List.foldl_cons]
    exact ih (applyWpPath idx cands vm p) (fun q hq => hps q (List.mem_cons_of_mem _ hq))
      (applyWpPath_inv idx allPaths p (hps p (List.mem_cons_self _ _)) cands vm hcands hvm)

theorem wpPassFrom_inv (paths : List Str) :
    ∀ (wps : List WorkPackage) (idx : Nat) (vm : VMap),
      (∀ e ∈ vm, EntryOK paths e) →
      ∀ e ∈ wpPassFrom paths idx wps vm, EntryOK paths e := by
  intro wps
  induction wps with
  | nil => intro idx vm hvm; exact hvm
  | cons wp rest ih =>
    intro idx vm hvm
    simp only [wpPassFrom]
    exact ih (idx + 1) _
      (foldl_applyWpPath_inv idx paths (wpCandidates (idx + 1) wp)
        (wpCandidates_norm (idx + 1) wp) paths vm (fun p hp => hp) hvm)

theorem build_field_value_map_inv (payload : Payload) (paths : List Str) :
    ∀ e ∈ build_field_value_map payload paths, EntryOK paths e := by
  unfold build_field_value_map
  exact wpPassFrom_inv paths payload.workPackages 0 _
    (foldl_applyFixed_inv payload paths paths [] (fun p hp => hp) (by simp))

/-! The value map has unique keys. -/

theorem applyFixed_wf (payload : Payload) (vm : VMap) (path : Str)
    (h : (vmKeys vm).Nodup) : (vmKeys (applyFixed payload vm path)).Nodup := by
  simp only [applyFixed]
  split
  · exact vmKeys_dictInsert_nodup vm _ _ _ h
  · exact h

theorem applyWpPath_wf (idx : Nat) (path : Str) :
    ∀ (cands : List (Str × Str)) (vm : VMap),
      (vmKeys vm).Nodup → (vmKeys (applyWpPath idx cands vm path)).Nodup := by
  intro cands
  induction cands with
  | nil => intro vm h; exact h
  | cons kv rest ih =>
    intro vm h
    simp only [applyWpPath, List.foldl_cons]
    refine ih _ ?_
    split
    · exact vmKeys_dictInsert_nodup vm _ _ _ h
    · exact h

theorem foldl_applyFixed_wf (payload : Payload) :
    ∀ (ps : List Str) (vm : VMap), (vmKeys vm).Nodup →
      (vmKeys (ps.foldl (applyFixed payload) vm)).Nodup := by
  intro ps
  induction ps with
  | nil => intro vm h; exact h
  | cons p rest ih =>
    intro vm h
    exact ih _ (applyFixed_wf payload vm p h)

theorem foldl_applyWpPath_wf (idx : Nat) (cands : List (Str × Str)) :
    ∀ (ps : List Str) (vm : VMap), (vmKeys vm).Nodup →
      (vmKeys (ps.foldl (applyWpPath idx cands) vm)).Nodup := by
  intro ps
  induction ps with
  | nil => intro vm h; exact h
  | cons p rest ih =>
    intro vm h
    exact ih _ (applyWpPath_wf idx p cands vm h)

theorem wpPassFrom_wf (paths : List Str) :
    ∀ (wps : List WorkPackage) (idx : Nat) (vm : VMap),
      (vmKeys vm).Nodup → (vmKeys (wpPassFrom paths idx wps vm)).Nodup := by
  intro wps
  induction wps with
  | nil => intro idx vm h; exact h
  | cons wp rest ih =>
    intro idx vm h
    exact ih (idx + 1) _ (foldl_applyWpPath_wf idx (wpCandidates (idx + 1) wp) paths vm h)

theorem build_field_value_map_wf (payload : Payload) (paths : List Str) :
    (vmKeys (build_field_value_map payload paths)).Nodup := by
  unfold build_field_value_map
  exact wpPassFrom_wf paths payload.workPackages 0 _
    (foldl_applyFixed_wf payload paths [] (by simp [vmKeys]))

/-! The write loop: shape preservation, written values, and idempotent rewrites. -/

theorem writeAll_fst_count : ∀ (vm : VMap) (t : XmlNode) (k : Nat),
    (vm.foldl writeStep (t, k)).1 = (writeAll t vm).1 := by
  intro vm
  induction vm with
  | nil => intro t k; rfl
  | cons e rest ih =>
    intro t k
    show (rest.foldl writeStep (writeStep (t, k) e)).1 = (rest.foldl writeStep (writeStep (t, 0) e)).1
    have h1 : writeStep (t, k) e
        = ((set_node_text t e.1 e.2.1).1, if (set_node_text t e.1 e.2.1).2 then k + 1 else k) := rfl
    have h2 : writeStep (t, 0) e
        = ((set_node_text t e.1 e.2.1).1, if (set_node_text t e.1 e.2.1).2 then 0 + 1 else 0) := rfl
    rw [h1, h2, ih, ih]

theorem writeAll_tree_cons (t : XmlNode) (e : Str × Str × Str) (rest : VMap) :
    (writeAll t (e :: rest)).1 = (writeAll (set_node_text t e.1 e.2.1).1 rest).1 := by
  show (rest.foldl writeStep (writeStep (t, 0) e)).1 = _
  have h1 : writeStep (t, 0) e
      = ((set_node_text t e.1 e.2.1).1, if (set_node_text t e.1 e.2.1).2 then 0 + 1 else 0) := rfl
  rw [h1, writeAll_fst_count]

theorem set_node_text_erase (t : XmlNode) (p v : Str) :
    eraseTexts (set_node_text t p v).1 = eraseTexts t := by
  unfold set_node_text
  cases hp : findNodePos t p with
  | none => rfl
  | some pos => exact updateTextAt_erase pos t (normalizeStr v)

theorem writeAll_erase : ∀ (vm : VMap) (t : XmlNode),
    eraseTexts (writeAll t vm).1 = eraseTexts t := by
  intro vm
  induction vm with
  | nil => intro t; rfl
  | cons e rest ih =>
    intro t
    rw [writeAll_tree_cons, ih, set_node_text_erase]

theorem findNodePos_congr (a b : XmlNode) (h : eraseTexts a = eraseTexts b) (p : Str) :
    findNodePos a p = findNodePos b p := by
  rw [← findNodePos_erase a, h, findNodePos_erase]

theorem nodeAt_isSome_congr (a b : XmlNode) (h : eraseTexts a = eraseTexts b) (pos : List Nat) :
    (nodeAt a pos).isSome = (nodeAt b pos).isSome := by
  have ha := nodeAt_erase pos a
  have hb := nodeAt_erase pos b
  rw [h] at ha
  rw [ha] at hb
  cases hx : nodeAt a pos <;> cases hy : nodeAt b pos <;>
    rw [hx, hy] at hb <;> simp_all

theorem writeAll_preserve : ∀ (vm : VMap) (t root : XmlNode) (pos0 : List Nat),
    eraseTexts t = eraseTexts root →
    (∀ e ∈ vm, ∀ posE, findNodePos root e.1 = some posE → posE ≠ pos0) →
    (nodeAt (writeAll t vm).1 pos0).map XmlNode.text
      = (nodeAt t pos0).map XmlNode.text := by
  intro vm
  induction vm with
  | nil => intro t root pos0 _ _; rfl
  | cons e rest ih =>
    intro t root pos0 her hyp
    rw [writeAll_tree_cons]
    have her' : eraseTexts (set_node_text t e.1 e.2.1).1 = eraseTexts root := by
      rw [set_node_text_erase, her]
    have hstep : (nodeAt (set_node_text t e.1 e.2.1).1 pos0).map XmlNode.text
        = (nodeAt t pos0).map XmlNode.text := by
      unfold set_node_text
      cases hp : findNodePos t e.1 with
      | none => rfl
      | some posE =>
        have hr : findNodePos root e.1 = some posE := by
          rw [← findNodePos_congr t root her]; exact hp
        exact nodeAt_update_other posE pos0 t _
          (fun he => (hyp e (List.mem_cons_self _ _) posE hr) (he ▸ rfl))
    rw [ih _ root pos0 her' (fun e' he' => hyp e' (List.mem_cons_of_mem _ he')), hstep]

theorem writeAll_establish : ∀ (vm : VMap) (t root : XmlNode),
    validTree root = true →
    eraseTexts t = eraseTexts root →
    (vmKeys vm).Nodup →
    (∀ e ∈ vm, e.1 ∈ contextFieldPaths root) →
    ∀ e ∈ vm, ∀ posE, findNodePos root e.1 = some posE →
      (nodeAt (writeAll t vm).1 posE).map XmlNode.text
        = some (some (normalizeStr e.2.1)) := by
  intro vm
  induction vm with
  | nil => intro t root _ _ _ _ e he; simp at he
  | cons e0 rest ih =>
    intro t root hv her hnd hkeys e he posE hpos
    have hnd' : (vmKeys rest).Nodup := by
      simp only [vmKeys, List.map_cons, List.nodup_cons] at hnd
      simpa [vmKeys] using hnd.2
    have her' : eraseTexts (set_node_text t e0.1 e0.2.1).1 = eraseTexts root := by
      rw [set_node_text_erase, her]
    rcases List.mem_cons.mp he with rfl | he2
    · rw [writeAll_tree_cons]
      have hfp : findNodePos t e.1 = some posE := by
        rw [findNodePos_congr t root her]; exact hpos
      have hset : (set_node_text t e.1 e.2.1).1 = updateTextAt t posE (normalizeStr e.2.1) := by
        unfold set_node_text
        rw [hfp]
      obtain ⟨posR, hposR, hpe, hres⟩ := path_resolves root hv e.1 (hkeys e (List.mem_cons_self _ _))
      have hpp : posR = posE := by
        rw [hres] at hpos
        injection hpos
      subst hpp
      have hsomeR : (nodeAt root posR).isSome = true := nodeAt_leafpos root posR hposR
      have hsomeT : (nodeAt t posR).isSome = true := by
        rw [nodeAt_isSome_congr t root her]; exact hsomeR
      obtain ⟨m, hm⟩ := Option.isSome_iff_exists.mp hsomeT
      have hupd := nodeAt_update_same posR t (normalizeStr e.2.1) m hm
      have hpre : ∀ e' ∈ rest, ∀ posE', findNodePos root e'.1 = some posE' → posE' ≠ posR := by
        intro e' he' posE' hres' heq
        have hkne : e'.1 ≠ e.1 := by
          intro hk
          simp only [vmKeys, List.map_cons, List.nodup_cons] at hnd
          exact hnd.1 (by rw [← hk]; exact List.mem_map.mpr ⟨e', he', rfl⟩)
        have := findNodePos_inj root hv e'.1 e.1 (hkeys e' (List.mem_cons_of_mem _ he'))
          (hkeys e (List.mem_cons_self _ _)) hkne
        rw [hres', hres, heq] at this
        exact this rfl
      rw [writeAll_preserve rest _ root posR her' hpre, hset, hupd]
      simp [XmlNode.text]
    · rw [writeAll_tree_cons]
      exact ih (set_node_text t e0.1 e0.2.1).1 root hv her' hnd'
        (fun e' he' => hkeys e' (List.mem_cons_of_mem _ he')) e he2 posE hpos

theorem writeAll_noop : ∀ (vm : VMap) (t : XmlNode),
    (∀ e ∈ vm, normalizeStr e.2.1 = e.2.1 ∧
      ∃ posE m, findNodePos t e.1 = some posE ∧ nodeAt t posE = some m ∧ m.text = some e.2.1) →
    (writeAll t vm).1 = t := by
  intro vm
  induction vm with
  | nil => intro t _; rfl
  | cons e rest ih =>
    intro t hyp
    rw [writeAll_tree_cons]
    have hset : (set_node_text t e.1 e.2.1).1 = t := by
      obtain ⟨hnorm, posE, m, hfp, hna, htx⟩ := hyp e (List.mem_cons_self _ _)
      unfold set_node_text
      rw [hfp]
      simp only []
      rw [hnorm]
      exact updateTextAt_id posE t e.2.1 m hna htx
    rw [hset]
    exact ih t (fun e' he' => hyp e' (List.mem_cons_of_mem _ he'))

/-! Characterization of the work-package pass of build_field_value_map. -/

theorem candHit_acc (idx : Nat) (low : Str) :
    ∀ (cands : List (Str × Str)) (a : Option (Str × Str)),
      candHit idx cands low a = (candHit idx cands low none).elim a some := by
  intro cands
  induction cands with
  | nil => intro a; simp [candHit]
  | cons kv rest ih =>
    intro a
    simp only [candHit, List.foldl_cons]
    by_cases h : (inStr kv.1 low && !kv.2.isEmpty) = true
    · rw [if_pos h, if_pos h]
      show candHit idx rest low _ = (candHit idx rest low _).elim a some
      rw [ih (some (kv.2, wpSource idx))]
      cases hrest : candHit idx rest low none <;> simp
    · rw [if_neg h, if_neg h]
      show candHit idx rest low a = (candHit idx rest low none).elim a some
      exact ih a

theorem lastWpHitFrom_acc :
    ∀ (wps : List WorkPackage) (idx : Nat) (low : Str) (a : Option (Str × Str)),
      lastWpHitFrom idx wps low a = (lastWpHitFrom idx wps low none).elim a some := by
  intro wps
  induction wps with
  | nil => intro idx low a; simp [lastWpHitFrom]
  | cons wp rest ih =>
    intro idx low a
    simp only [lastWpHitFrom]
    rw [ih (idx + 1) low (wpHitOne idx wp low a), ih (idx + 1) low (wpHitOne idx wp low none)]
    cases hrest : lastWpHitFrom (idx + 1) rest low none with
    | some r => simp
    | none =>
      simp only [Option.elim]
      unfold wpHitOne
      exact candHit_acc idx low _ a

theorem applyWpPath_lookup (idx : Nat) :
    ∀ (cands : List (Str × Str)) (vm : VMap) (q p : Str),
      vmLookup (applyWpPath idx cands vm q) p
        = if q = p then (candHit idx cands (lowerStr q) none).elim (vmLookup vm p) some
          else vmLookup vm p := by
  intro cands
  induction cands with
  | nil =>
    intro vm q p
    by_cases h : q = p <;> simp [applyWpPath, candHit, h]
  | cons kv rest ih =>
    intro vm q p
    have hstep : applyWpPath idx (kv :: rest) vm q
        = applyWpPath idx rest
            (if inStr kv.1 (lowerStr q) && !kv.2.isEmpty
              then dictInsert vm q kv.2 (wpSource idx) else vm) q := rfl
    rw [hstep]
    by_cases hhit : (inStr kv.1 (lowerStr q) && !kv.2.isEmpty) = true
    · rw [if_pos hhit, ih]
      have hch : candHit idx (kv :: rest) (lowerStr q) none
          = (candHit idx rest (lowerStr q) none).elim (some (kv.2, wpSource idx)) some := by
        simp only [candHit, List.foldl_cons, if_pos hhit]
        exact candHit_acc idx (lowerStr q) rest _
      rw [hch]
      by_cases hqp : q = p
      · subst hqp
        simp only [if_pos rfl]
        rw [vmLookup_dictInsert_self]
        cases hrest : candHit idx rest (lowerStr q) none <;> simp
      · simp only [if_neg hqp]
        exact vmLookup_dictInsert_other vm q kv.2 (wpSource idx) p
          (fun he => hqp he.symm)
    · rw [if_neg hhit, ih]
      have hch : candHit idx (kv :: rest) (lowerStr q) none
          = candHit idx rest (lowerStr q) none := by
        simp only [candHit, List.foldl_cons, if_neg hhit]
      rw [hch]

theorem foldl_applyWpPath_lookup (idx : Nat) (cands : List (Str × Str)) :
    ∀ (ps : List Str) (vm : VMap) (p : Str),
      vmLookup (ps.foldl (applyWpPath idx cands) vm) p
        = (if p ∈ ps then candHit idx cands (lowerStr p) none else none).elim
            (vmLookup vm p) some := by
  intro ps
  induction ps with
  | nil => intro vm p; simp
  | cons q rest ih =>
    intro vm p
    simp only [List.foldl_cons]
    rw [ih, applyWpPath_lookup]
    by_cases hqp : q = p
    · subst hqp
      by_cases hrest : q ∈ rest <;>
        cases hH : candHit idx cands (lowerStr q) none <;>
          simp [hrest, hH]
    · rw [if_neg hqp]
      by_cases hrest : p ∈ rest
      · have hmem : p ∈ q :: rest := List.mem_cons_of_mem _ hrest
        simp [hrest, hmem]
      · have hmem : p ∉ q :: rest := by
          intro hm
          rcases List.mem_cons.mp hm with he | he
          · exact hqp he.symm
          · exact hrest he
        simp [hrest, hmem]

theorem wpPassFrom_lookup (paths : List Str) :
    ∀ (wps : List WorkPackage) (idx : Nat) (vm : VMap) (p : Str),
      vmLookup (wpPassFrom paths idx wps vm) p
        = (if p ∈ paths then lastWpHitFrom idx wps (lowerStr p) none else none).elim
            (vmLookup vm p) some := by
  intro wps
  induction wps with
  | nil =>
    intro idx vm p
    by_cases hp : p ∈ paths <;> simp [wpPassFrom, lastWpHitFrom, hp]
  | cons wp rest ih =>
    intro idx vm p
    simp only [wpPassFrom]
    rw [ih, foldl_applyWpPath_lookup]
    have hlast : lastWpHitFrom idx (wp :: rest) (lowerStr p) none
        = (lastWpHitFrom (idx + 1) rest (lowerStr p) none).elim
            (wpHitOne idx wp (lowerStr p) none) some := by
      show lastWpHitFrom (idx + 1) rest (lowerStr p) (wpHitOne idx wp (lowerStr p) none) = _
      exact lastWpHitFrom_acc rest (idx + 1) (lowerStr p) _
    by_cases hp : p ∈ paths
    · rw [hlast]
      cases hrest : lastWpHitFrom (idx + 1) rest (lowerStr p) none <;>
        cases hone : candHit idx (wpCandidates (idx + 1) wp) (lowerStr p) none <;>
          simp [hp, hrest, hone, wpHitOne]
    · simp [hp]

theorem build_lookup_wpHit (payload : Payload) (paths : List Str) (p : Str)
    (hp : p ∈ paths) (r : Str × Str)
    (hhit : lastWpHit payload.workPackages p = some r) :
    vmLookup (build_field_value_map payload paths) p = some r := by
  unfold build_field_value_map
  rw [wpPassFrom_lookup]
  unfold lastWpHit at hhit
  simp [hp, hhit]

theorem build_lookup_noWpHit (payload : Payload) (paths : List Str) (p : Str)
    (hnone : lastWpHit payload.workPackages p = none) :
    vmLookup (build_field_value_map payload paths) p
      = vmLookup (paths.foldl (applyFixed payload) []) p := by
  unfold build_field_value_map
  rw [wpPassFrom_lookup]
  unfold lastWpHit at hnone
  by_cases hp : p ∈ paths <;> simp [hp, hnone]

/-! Currency formatting. -/

theorem roundHalfEven_intCast (n : ℤ) : roundHalfEven (n : ℚ) = n := by
  simp only [roundHalfEven, Int.floor_intCast]
  norm_num

theorem natDigitsAux_lt10 (fuel n : Nat) (hf : 0 < fuel) (h : n < 10) :
    natDigitsAux fuel n = [digitChar n] := by
  cases fuel with
  | zero => omega
  | succ f => simp [natDigitsAux, h]

theorem natToStr_lt10 (n : Nat) (h : n < 10) : natToStr n = [digitChar n] :=
  natDigitsAux_lt10 (n + 1) n (Nat.succ_pos n) h

theorem natToStr_two (n : Nat) (h1 : 10 ≤ n) (h2 : n < 100) :
    natToStr n = [digitChar (n / 10), digitChar (n % 10)] := by
  unfold natToStr
  rw [natDigitsAux]
  rw [if_neg (by omega)]
  rw [natDigitsAux_lt10 n (n / 10) (by omega) (by omega)]
  rfl

theorem pad2_digits (m : Nat) (h : m < 100) :
    ∃ a b, a < 10 ∧ b < 10 ∧ pad2 m = [digitChar a, digitChar b] := by
  by_cases h10 : m < 10
  · refine ⟨0, m, by omega, h10, ?_⟩
    simp only [pad2, if_pos h10, natToStr_lt10 m h10]
    rfl
  · refine ⟨m / 10, m % 10, by omega, by omega, ?_⟩
    simp only [pad2, if_neg h10, natToStr_two m (by omega) h]

theorem chain_append (x y : Str) :
    replaceChar '_' '.' (replaceChar '.' ',' (replaceChar ',' '_' (x ++ y)))
      = replaceChar '_' '.' (replaceChar '.' ',' (replaceChar ',' '_' x))
        ++ replaceChar '_' '.' (replaceChar '.' ',' (replaceChar ',' '_' y)) := by
  simp [replaceChar, List.map_append]

theorem chain_suffix (a b : Nat) (ha : a < 10) (hb : b < 10) :
    replaceChar '_' '.' (replaceChar '.' ','
        (replaceChar ',' '_' ('.' :: [digitChar a, digitChar b])))
      = [',', digitChar a, digitChar b] := by
  interval_cases a <;> interval_cases b <;> decide

theorem format_euro_shape (q : ℚ) :
    ∃ (pre : Str) (a b : Nat), a < 10 ∧ b < 10 ∧
      format_euro q = pre ++ [',', digitChar a, digitChar b] := by
  obtain ⟨a, b, ha, hb, hpad⟩ :=
    pad2_digits ((roundHalfEven (100 * q)).natAbs % 100) (Nat.mod_lt _ (by norm_num))
  refine ⟨replaceChar '_' '.' (replaceChar '.' ',' (replaceChar ',' '_'
      (if roundHalfEven (100 * q) < 0 then [ '-' ] else [])))
    ++ replaceChar '_' '.' (replaceChar '.' ',' (replaceChar ',' '_'
      (groupDigits ((roundHalfEven (100 * q)).natAbs / 100)))), a, b, ha, hb, ?_⟩
  simp only [format_euro, formatComma2f, hpad]
  rw [chain_append, chain_append, chain_suffix a b ha hb, List.append_assoc]

theorem format_euro_1234_5 : format_euro (2469 / 2 : ℚ) = "1.234,50".toList := by
  have h : roundHalfEven (100 * (2469 / 2 : ℚ)) = 123450 := by
    rw [show (100 * (2469 / 2 : ℚ)) = ((123450 : ℤ) : ℚ) by norm_num]
    exact roundHalfEven_intCast 123450
  simp only [format_euro, formatComma2f, h]
  decide

theorem format_euro_zero : format_euro (0 : ℚ) = "0,00".toList := by
  have h : roundHalfEven (100 * (0 : ℚ)) = 0 := by
    rw [show (100 * (0 : ℚ)) = ((0 : ℤ) : ℚ) by norm_num]
    exact roundHalfEven_intCast 0
  simp only [format_euro, formatComma2f, h]
  decide

/-! The tri-state mismatch flag and the analyze result. -/

theorem mismatchFlag_some_some (a p : Str) :
    mismatchFlag (some a) (some p)
      = if !a.isEmpty && !p.isEmpty
        then some (decide (caseFold (trimStr a) ≠ caseFold (trimStr p))) else none := rfl

theorem mismatchFlag_true_iff (a p : Str) :
    mismatchFlag (some a) (some p) = some true ↔
      a ≠ [] ∧ p ≠ [] ∧ caseFold (trimStr a) ≠ caseFold (trimStr p) := by
  cases a with
  | nil => simp [mismatchFlag]
  | cons c t =>
    cases p with
    | nil => simp [mismatchFlag, List.isEmpty]
    | cons d u => simp [mismatchFlag, List.isEmpty]

theorem mismatchFlag_false_iff (a p : Str) :
    mismatchFlag (some a) (some p) = some false ↔
      a ≠ [] ∧ p ≠ [] ∧ caseFold (trimStr a) = caseFold (trimStr p) := by
  cases a with
  | nil => simp [mismatchFlag]
  | cons c t =>
    cases p with
    | nil => simp [mismatchFlag, List.isEmpty]
    | cons d u => simp [mismatchFlag, List.isEmpty]

theorem mismatchFlag_some_inv (a p : Option Str) (b : Bool)
    (h : mismatchFlag a p = some b) :
    ∃ sa sp, a = some sa ∧ p = some sp ∧ sa ≠ [] ∧ sp ≠ [] := by
  cases a with
  | none => simp [mismatchFlag] at h
  | some sa =>
    cases p with
    | none => simp [mismatchFlag] at h
    | some sp =>
      refine ⟨sa, sp, rfl, rfl, ?_, ?_⟩ <;>
        · simp only [mismatchFlag] at h
          by_cases he : (!sa.isEmpty && !sp.isEmpty) = true
          · simp only [Bool.and_eq_true, Bool.not_eq_true'] at he
            simp [List.isEmpty_iff] at he
            first
            | exact he.1
            | exact he.2
          · rw [if_neg he] at h
            exact absurd h (by simp)

theorem analyze_some_parts (root : XmlNode) (payload : Payload) :
    analyze_pdf (some root) payload
      = ⟨true, extract_pdf_acronym root (contextFieldPaths root),
          strOrNone (normalize_text payload.projectName),
          mismatchFlag (extract_pdf_acronym root (contextFieldPaths root))
            (strOrNone (normalize_text payload.projectName)),
          contextFieldPaths root,
          build_mapping_preview payload (contextFieldPaths root)⟩ := rfl

/-! Structure of fill_pdf results. -/

theorem fill_pdf_mismatch_abort (root : XmlNode) (payload : Payload)
    (hm : computedMismatch root payload = true) :
    fill_pdf (some root) payload false = .error .mismatchNotConfirmed := by
  unfold fill_pdf
  simp only []
  rw [hm]
  rfl

theorem fill_pdf_confirm (root : XmlNode) (payload : Payload) :
    fill_pdf (some root) payload true
      = .ok ((writeAll root (build_field_value_map payload (contextFieldPaths root))).1,
          ⟨extract_pdf_acronym root (contextFieldPaths root),
           strOrNone (normalize_text payload.projectName),
           computedMismatch root payload,
           slugify_ascii (normalize_text payload.projectName) "Projekt".toList
             ++ '_' :: (slugify_ascii (normalize_text payload.companyName) "Unternehmen".toList
               ++ "_Mantelbogen.pdf".toList),
           (writeAll root (build_field_value_map payload (contextFieldPaths root))).2⟩) := by
  unfold fill_pdf
  simp only []
  cases hb : computedMismatch root payload <;> rfl

theorem fill_pdf_ok_inv (root : XmlNode) (payload : Payload) (confirm : Bool)
    (t1 : XmlNode) (m1 : FillMeta)
    (h : fill_pdf (some root) payload confirm = .ok (t1, m1)) :
    t1 = (writeAll root (build_field_value_map payload (contextFieldPaths root))).1 := by
  unfold fill_pdf at h
  simp only [] at h
  by_cases hm : (computedMismatch root payload && !confirm) = true
  · rw [if_pos hm] at h
    exact absurd h (by simp)
  · rw [if_neg hm] at h
    injection h with h2
    exact (congrArg Prod.fst h2).symm

theorem contextFieldPaths_congr (a b : XmlNode) (h : eraseTexts a = eraseTexts b) :
    contextFieldPaths a = contextFieldPaths b := by
  rw [← contextFieldPaths_erase a, h, contextFieldPaths_erase]

/-! Uniqueness and count of the generated leaf paths. -/

theorem contextFieldPaths_nodup (root : XmlNode) (hv : validTree root = true) :
    (contextFieldPaths root).Nodup := by
  unfold contextFieldPaths
  rw [leaf_paths_eq]
  refine List.Nodup.map_on ?_ (leafPositions_nodup root)
  intro x hx y hy hxy
  have h1 := findNodePos_leaf root hv x hx
  have h2 := findNodePos_leaf root hv y hy
  rw [hxy] at h1
  rw [h1] at h2
  injection h2

theorem contextFieldPaths_length (root : XmlNode) :
    (contextFieldPaths root).length = leafCount root := by
  unfold contextFieldPaths
  rw [leaf_paths_eq, List.length_map, leafPositions_length]

/-! Distinctness of the disambiguated sibling segments. -/

theorem filter_take_lt (pred : XmlNode → Bool) (cs : List XmlNode) (i j : Nat) (ci : XmlNode)
    (hij : i < j) (hget : cs.get? i = some ci) (hpred : pred ci = true) :
    ((cs.take i).filter pred).length < ((cs.take j).filter pred).length := by
  obtain ⟨rest, hd⟩ : ∃ rest, cs.drop i = ci :: rest := by
    have h0 : (cs.drop i).get? 0 = some ci := by
      rw [List.get?_drop]; simpa using hget
    cases hdrop : cs.drop i with
    | nil => rw [hdrop] at h0; simp at h0
    | cons y rest =>
      rw [hdrop] at h0
      simp only [List.get?] at h0
      injection h0 with h0
      exact ⟨rest, by rw [← h0]⟩
  have htj : cs.take j = cs.take i ++ (cs.drop i).take (j - i) := by
    nth_rewrite 1 [show j = i + (j - i) from by omega]
    rw [List.take_add]
  rw [htj, List.filter_append, List.length_append, hd]
  rw [show j - i = (j - i - 1) + 1 from by omega]
  simp only [List.take_succ_cons, List.filter_cons, hpred, if_true, List.length_cons]
  omega

theorem segment_name_distinct (cs : List XmlNode) (i j : Nat) (ci cj : XmlNode)
    (hgi : cs.get? i = some ci) (hgj : cs.get? j = some cj) (hij : i ≠ j)
    (hname : local_name cj.tag = local_name ci.tag)
    (hcount : ¬ (cs.filter (sameName (local_name ci.tag))).length ≤ 1) :
    segment_name cs i ≠ segment_name cs j := by
  have hpi : sameName (local_name ci.tag) ci = true := sameName_self ci
  have hpj : sameName (local_name ci.tag) cj = true := by
    rw [← hname]; exact sameName_self cj
  have hsi := segment_name_gt cs i ci hgi hcount
  have hsj := segment_name_gt cs j cj hgj (by rw [hname]; exact hcount)
  rw [hsi, hsj, hname]
  intro he
  have h2 := List.append_cancel_left he
  injection h2 with _ h3
  have h4 := List.append_cancel_right h3
  have h5 := natToStr_inj h4
  rcases Nat.lt_or_ge i j with hlt | hge
  · exact absurd h5 (Nat.ne_of_lt (filter_take_lt _ cs i j ci hlt hgi hpi))
  · have hlt2 : j < i := by omega
    exact absurd h5.symm (Nat.ne_of_lt (filter_take_lt _ cs j i cj hlt2 hgj hpj))

/-! A bare final segment and its zero-index disambiguated form select the same node. -/

theorem findSegs_bare_zero (name : Str) (hb : '[' ∉ name) (hne : name ≠ []) :
    ∀ (pre : List Str) (cur : XmlNode),
      findSegs cur (pre ++ [name])
        = findSegs cur (pre ++ [name ++ '[' :: (natToStr 0 ++ [']'])]) := by
  intro pre
  induction pre with
  | nil =>
    intro cur
    simp only [List.nil_append]
    unfold findSegs
    simp only []
    rw [split_segment_no_bracket name hb, split_segment_bracket name 0 hne]
    cases hc : cur.children.filter (sameName name) with
    | nil => rfl
    | cons c cs => rfl
  | cons s mid ih =>
    intro cur
    simp only [List.cons_append]
    unfold findSegs
    simp only []
    cases hsp : (split_segment s).2 with
    | none =>
      simp only []
      cases hc : cur.children.filter (sameName (split_segment s).1) with
      | nil => rfl
      | cons c cs => exact ih c
    | some k =>
      simp only []
      cases hg : (cur.children.filter (sameName (split_segment s).1)).get? k with
      | none => rfl
      | some c => exact ih c

theorem find_node_bare_zero (root : XmlNode) (p name : Str)
    (hb : '[' ∉ name) (hne : name ≠ []) (hns : '/' ∉ name) :
    find_node root (childPath p name)
      = find_node root (childPath p (name ++ '[' :: (natToStr 0 ++ [']']))) := by
  have hne2 : name ++ '[' :: (natToStr 0 ++ [']']) ≠ [] := by simp
  have hns2 : '/' ∉ name ++ '[' :: (natToStr 0 ++ [']']) := by
    intro hm
    rcases List.mem_append.mp hm with h1 | h2
    · exact hns h1
    · rcases List.mem_cons.mp h2 with h3 | h4
      · exact absurd h3 (by decide)
      · rcases List.mem_append.mp h4 with h5 | h6
        · exact (natToStr_no_special 0).1 h5
        · simp only [List.mem_singleton] at h6
          exact absurd h6 (by decide)
  unfold find_node
  cases p with
  | nil =>
    rw [show childPath [] name = name from rfl,
      show childPath [] (name ++ '[' :: (natToStr 0 ++ [']']))
        = name ++ '[' :: (natToStr 0 ++ [']']) from rfl]
    have hsp1 : splitPath name = [name] := by
      rw [splitPath_no_sep name hns]
      cases name with
      | nil => exact absurd rfl hne
      | cons a t => rfl
    have hsp2 : splitPath (name ++ '[' :: (natToStr 0 ++ [']']))
        = [name ++ '[' :: (natToStr 0 ++ [']'])] := by
      rw [splitPath_no_sep _ hns2]
      cases name with
      | nil => exact absurd rfl hne
      | cons a t => rfl
    rw [hsp1, hsp2]
    simp only []
    rw [split_segment_no_bracket name hb, split_segment_bracket name 0 hne]
  | cons c0 p0 =>
    rw [show childPath (c0 :: p0) name = (c0 :: p0) ++ '/' :: name from rfl,
      show childPath (c0 :: p0) (name ++ '[' :: (natToStr 0 ++ [']']))
        = (c0 :: p0) ++ '/' :: (name ++ '[' :: (natToStr 0 ++ [']'])) from rfl]
    rw [splitPath_append_seg (c0 :: p0) name hne hns,
      splitPath_append_seg (c0 :: p0) _ hne2 hns2]
    cases hsp : splitPath (c0 :: p0) with
    | nil =>
      simp only [List.nil_append]
      rw [split_segment_no_bracket name hb, split_segment_bracket name 0 hne]
    | cons s0 mid =>
      simp only [List.cons_append]
      by_cases hr : local_name root.tag = (split_segment s0).1
      · rw [if_pos hr, if_pos hr]
        exact findSegs_bare_zero name hb hne mid root
      · rw [if_neg hr, if_neg hr]

/-! The characters a formatted currency string can contain. -/

theorem digit_ne_seps {c : Char} (h : c.isDigit = true) :
    c ≠ ',' ∧ c ≠ '.' ∧ c ≠ '_' ∧ c ≠ '-' := by
  refine ⟨?_, ?_, ?_, ?_⟩ <;> intro he <;> subst he <;> exact absurd h (by decide)

theorem groupRev_mem : ∀ (l : Str), ∀ c ∈ groupRev l, c ∈ l ∨ c = ',' := by
  intro l
  induction l using groupRev.induct with
  | case1 d1 d2 d3 d4 rest ih =>
    intro c hc
    simp only [groupRev] at hc
    rcases List.mem_cons.mp hc with rfl | hc1
    · exact Or.inl (by simp)
    · rcases List.mem_cons.mp hc1 with rfl | hc2
      · exact Or.inl (by simp)
      · rcases List.mem_cons.mp hc2 with rfl | hc3
        · exact Or.inl (by simp)
        · rcases List.mem_cons.mp hc3 with rfl | hc4
          · exact Or.inr rfl
          · rcases ih c hc4 with hm | he
            · exact Or.inl (by simp [List.mem_cons.mp hm |>.elim (fun h => Or.inl h) Or.inr])
            · exact Or.inr he
  | case2 l h =>
    intro c hc
    rw [groupRev] at hc
    · exact Or.inl hc
    · exact h

theorem groupDigits_mem (n : Nat) : ∀ c ∈ groupDigits n, c.isDigit = true ∨ c = ',' := by
  intro c hc
  unfold groupDigits at hc
  rw [List.mem_reverse] at hc
  rcases groupRev_mem _ c hc with h | h
  · rw [List.mem_reverse] at h
    exact Or.inl (natToStr_digits n c h)
  · exact Or.inr h

theorem pad2_isDigit (m : Nat) : ∀ c ∈ pad2 m, c.isDigit = true := by
  intro c hc
  unfold pad2 at hc
  by_cases h : m < 10
  · rw [if_pos h] at hc
    rcases List.mem_cons.mp hc with rfl | h2
    · decide
    · exact natToStr_digits m c h2
  · rw [if_neg h] at hc
    exact natToStr_digits m c hc

theorem formatComma2f_mem (q : ℚ) :
    ∀ c ∈ formatComma2f q, c = '-' ∨ c.isDigit = true ∨ c = ',' ∨ c = '.' := by
  intro c hc
  unfold formatComma2f at hc
  rcases List.mem_append.mp hc with h12 | h3
  · rcases List.mem_append.mp h12 with h1 | h2
    · by_cases hneg : roundHalfEven (100 * q) < 0
      · rw [if_pos hneg] at h1
        simp only [List.mem_singleton] at h1
        exact Or.inl h1
      · rw [if_neg hneg] at h1
        simp at h1
    · rcases groupDigits_mem _ c h2 with h | h
      · exact Or.inr (Or.inl h)
      · exact Or.inr (Or.inr (Or.inl h))
  · rcases List.mem_cons.mp h3 with rfl | h4
    · exact Or.inr (Or.inr (Or.inr rfl))
    · exact Or.inr (Or.inl (pad2_isDigit _ c h4))

theorem format_euro_chars (q : ℚ) :
    ∀ c ∈ format_euro q, c.isDigit = true ∨ c = ',' ∨ c = '.' ∨ c = '-' := by
  intro c hc
  unfold format_euro replaceChar at hc
  simp only [List.mem_map] at hc
  obtain ⟨x2, hx2, rfl⟩ := hc
  obtain ⟨x1, hx1, rfl⟩ := hx2
  obtain ⟨x0, hx0, rfl⟩ := hx1
  rcases formatComma2f_mem q x0 hx0 with rfl | hd | rfl | rfl
  · right; right; right; decide
  · obtain ⟨h1, h2, h3, _⟩ := digit_ne_seps hd
    left
    simp only [if_neg h1, if_neg h2, if_neg h3]
    exact hd
  · right; right; left; decide
  · right; left; decide

/-! Remaining glue for the tri-state flag. -/

theorem mismatchFlag_none_left (p : Option Str) : mismatchFlag none p = none := by
  cases p <;> rfl

theorem mismatchFlag_none_right (a : Option Str) : mismatchFlag a none = none := by
  cases a <;> rfl

theorem computedMismatch_eq_flag (root : XmlNode) (payload : Payload) :
    computedMismatch root payload
      = (mismatchFlag (extract_pdf_acronym root (contextFieldPaths root))
          (strOrNone (normalize_text payload.projectName))).getD false := by
  unfold computedMismatch mismatchFlag strOrNone
  cases hx : extract_pdf_acronym root (contextFieldPaths root) with
  | none => rfl
  | some a =>
    simp only []
    by_cases hp : (normalize_text payload.projectName).isEmpty
    · simp [hp]
    · rw [if_neg hp]
      by_cases ha : a.isEmpty
      · simp [ha, hp]
      · by_cases heq : caseFold (trimStr a) = caseFold (trimStr (normalize_text payload.projectName))
        · simp [ha, hp, heq]
        · simp [ha, hp, heq]

/-! Claims. -/

/-- C1: on a valid data tree, every generated leaf path resolves to exactly one node
    (find_node returns the node at the position the resolution selects), distinct paths
    resolve to distinct node identities, the paths are pairwise distinct and as many as
    the tree's leaves, and resolution depends only on the tree shape, so it is stable
    across text updates. -/
theorem leaf_paths_resolve_uniquely (root : XmlNode) (hv : validTree root = true) :
    (∀ p ∈ contextFieldPaths root, ∃ (pos : List Nat) (m : XmlNode),
        findNodePos root p = some pos ∧ nodeAt root pos = some m ∧ find_node root p = some m)
  ∧ (∀ p ∈ contextFieldPaths root, ∀ q ∈ contextFieldPaths root, p ≠ q →
        findNodePos root p ≠ findNodePos root q)
  ∧ (contextFieldPaths root).Nodup
  ∧ (contextFieldPaths root).length = leafCount root
  ∧ (∀ t : XmlNode, eraseTexts t = eraseTexts root → ∀ p : Str,
        findNodePos t p = findNodePos root p) := by
  refine ⟨?_, fun p hp q hq => findNodePos_inj root hv p q hp hq,
    contextFieldPaths_nodup root hv, contextFieldPaths_length root,
    fun t ht p => findNodePos_congr t root ht p⟩
  intro p hp
  obtain ⟨pos, hposmem, hpe, hres⟩ := path_resolves root hv p hp
  obtain ⟨m, hm⟩ := Option.isSome_iff_exists.mp (nodeAt_leafpos root pos hposmem)
  refine ⟨pos, m, hres, hm, ?_⟩
  rw [find_node_eq, hres]
  exact hm

theorem leaf_paths_resolve_uniquely_witness :
    validTree sampleRoot = true
  ∧ ((∀ p ∈ contextFieldPaths sampleRoot, ∃ (pos : List Nat) (m : XmlNode),
        findNodePos sampleRoot p = some pos ∧ nodeAt sampleRoot pos = some m
          ∧ find_node sampleRoot p = some m)
    ∧ (∀ p ∈ contextFieldPaths sampleRoot, ∀ q ∈ contextFieldPaths sampleRoot, p ≠ q →
        findNodePos sampleRoot p ≠ findNodePos sampleRoot q)
    ∧ (contextFieldPaths sampleRoot).Nodup
    ∧ (contextFieldPaths sampleRoot).length = leafCount sampleRoot
    ∧ (∀ t : XmlNode, eraseTexts t = eraseTexts sampleRoot → ∀ p : Str,
        findNodePos t p = findNodePos sampleRoot p)) :=
  ⟨by decide, leaf_paths_resolve_uniquely sampleRoot (by decide)⟩

/-- C2: when the computed mismatch flag is true and the caller has not confirmed, fill
    aborts with the distinguished mismatch-not-confirmed error and the HTTP layer turns
    it into a conflict carrying the document acronym and the payload project name, with
    no output; the same call with confirmation succeeds and reports the mismatch in its
    metadata. -/
theorem mismatch_gate_fill (root : XmlNode) (payload : Payload)
    (hm : computedMismatch root payload = true) :
    fill_pdf (some root) payload false = .error .mismatchNotConfirmed
  ∧ fill_zim_pdf (some root) payload false
      = .conflict (analyze_pdf (some root) payload).pdfAcronym
          (analyze_pdf (some root) payload).projectName
  ∧ ∃ (out : XmlNode) (meta : FillMeta),
      fill_pdf (some root) payload true = .ok (out, meta) ∧ meta.acronymMismatch = true := by
  have h1 := fill_pdf_mismatch_abort root payload hm
  refine ⟨h1, ?_, ⟨_, _, fill_pdf_confirm root payload, hm⟩⟩
  unfold fill_zim_pdf
  rw [h1]

theorem mismatch_gate_fill_witness :
    computedMismatch sampleRoot samplePayload = true
  ∧ (fill_pdf (some sampleRoot) samplePayload false = .error .mismatchNotConfirmed
    ∧ fill_zim_pdf (some sampleRoot) samplePayload false
        = .conflict (analyze_pdf (some sampleRoot) samplePayload).pdfAcronym
            (analyze_pdf (some sampleRoot) samplePayload).projectName
    ∧ ∃ (out : XmlNode) (meta : FillMeta),
        fill_pdf (some sampleRoot) samplePayload true = .ok (out, meta)
          ∧ meta.acronymMismatch = true) :=
  ⟨by decide, mismatch_gate_fill sampleRoot samplePayload (by decide)⟩

/-- C3: the analyze mismatch flag is exactly the tri-state comparison of the document
    acronym and the payload project name: some true exactly when both are present,
    non-empty and differ after trimming and case-folding, some false exactly when both
    are present and agree; fill's boolean flag is the same comparison defaulted to
    false; the two concrete pairs of the spec evaluate as stated. -/
theorem mismatch_flag_spec :
    (∀ (root : XmlNode) (payload : Payload),
        (analyze_pdf (some root) payload).acronymMismatch
          = mismatchFlag (analyze_pdf (some root) payload).pdfAcronym
              (analyze_pdf (some root) payload).projectName)
  ∧ (∀ a p : Str, mismatchFlag (some a) (some p) = some true ↔
        a ≠ [] ∧ p ≠ [] ∧ caseFold (trimStr a) ≠ caseFold (trimStr p))
  ∧ (∀ a p : Str, mismatchFlag (some a) (some p) = some false ↔
        a ≠ [] ∧ p ≠ [] ∧ caseFold (trimStr a) = caseFold (trimStr p))
  ∧ (∀ (root : XmlNode) (payload : Payload),
        computedMismatch root payload
          = (mismatchFlag (extract_pdf_acronym root (contextFieldPaths root))
              (strOrNone (normalize_text payload.projectName))).getD false)
  ∧ mismatchFlag (some "ProjektX".toList) (some "projektx".toList) = some false
  ∧ mismatchFlag (some "ProjektX".toList) (some "ProjektY".toList) = some true :=
  ⟨fun root payload => rfl, mismatchFlag_true_iff, mismatchFlag_false_iff,
    computedMismatch_eq_flag, by decide, by decide⟩

/-- C4: two distinct same-named siblings under one parent (with at least two sharing
    the name) receive distinct generated segments, the segment carries the positional
    index of the sibling among its same-named predecessors, and a bare final segment
    resolves exactly as the same segment with the index-0 disambiguator appended. -/
theorem sibling_disambiguation (parent : XmlNode) (i j : Nat) (ci cj : XmlNode)
    (hgi : parent.children.get? i = some ci) (hgj : parent.children.get? j = some cj)
    (hij : i ≠ j) (hname : local_name cj.tag = local_name ci.tag)
    (hcount : 2 ≤ (parent.children.filter (sameName (local_name ci.tag))).length)
    (hvn : validName (local_name ci.tag) = true) :
    segment_name parent.children i ≠ segment_name parent.children j
  ∧ segment_name parent.children i
      = local_name ci.tag ++ '[' ::
          (natToStr (((parent.children.take i).filter
            (sameName (local_name ci.tag))).length) ++ [']'])
  ∧ ∀ (root : XmlNode) (p : Str),
      find_node root (childPath p (local_name ci.tag))
        = find_node root (childPath p (local_name ci.tag ++ '[' :: (natToStr 0 ++ [']']))) := by
  obtain ⟨hne, hns, hnb⟩ := validName_spec _ hvn
  have hgt : ¬ (parent.children.filter (sameName (local_name ci.tag))).length ≤ 1 := by omega
  exact ⟨segment_name_distinct parent.children i j ci cj hgi hgj hij hname hgt,
    segment_name_gt parent.children i ci hgi hgt,
    fun root p => find_node_bare_zero root p (local_name ci.tag) hnb hne hns⟩

theorem sibling_disambiguation_witness :
    segment_name dupRoot.children 0 ≠ segment_name dupRoot.children 1
  ∧ segment_name dupRoot.children 0
      = local_name (XmlNode.mk "a".toList (some "x".toList) []).tag ++ '[' ::
          (natToStr (((dupRoot.children.take 0).filter
            (sameName (local_name (XmlNode.mk "a".toList (some "x".toList) []).tag))).length)
            ++ [']'])
  ∧ ∀ (root : XmlNode) (p : Str),
      find_node root (childPath p (local_name (XmlNode.mk "a".toList (some "x".toList) []).tag))
        = find_node root (childPath p (local_name (XmlNode.mk "a".toList (some "x".toList) []).tag
            ++ '[' :: (natToStr 0 ++ [']']))) :=
  sibling_disambiguation dupRoot 0 1 (XmlNode.mk "a".toList (some "x".toList) [])
    (XmlNode.mk "a".toList (some "y".toList) []) rfl rfl (by decide) rfl (by decide) (by decide)

/-- C5 (corrected): the work-package pass runs after the fixed-category pass and, for
    the work package of 1-based ordinal n, searches its three key fragments
    case-insensitively in every leaf path; the last hit determines the final mapping of
    a path, overwriting a fixed-category mapping rather than skipping an already-mapped
    path, and a path with no hit keeps its fixed-category mapping. -/
theorem wp_pass_overwrites :
    (∀ (payload : Payload) (paths : List Str) (p : Str) (r : Str × Str),
        p ∈ paths → lastWpHit payload.workPackages p = some r →
          vmLookup (build_field_value_map payload paths) p = some r)
  ∧ (∀ (payload : Payload) (paths : List Str) (p : Str),
        lastWpHit payload.workPackages p = none →
          vmLookup (build_field_value_map payload paths) p
            = vmLookup (paths.foldl (applyFixed payload) []) p) :=
  ⟨fun payload paths p r hp hr => build_lookup_wpHit payload paths p hp r hr,
   fun payload paths p h => build_lookup_noWpHit payload paths p h⟩

/-- C5 counterexample to the original wording: the path wurzel/ap1_nr_dauer is mapped
    by the fixed duration rule, yet the work-package pass remaps it — the final map
    carries the work package ordinal, not the duration, so already-mapped paths are not
    skipped. -/
theorem wp_pass_no_skip_cex :
    vmLookup (cexPaths.foldl (applyFixed cexPayload) []) cexPath
        = some ( "12".toList, "project.durationMonths".toList)
  ∧ vmLookup (build_field_value_map cexPayload cexPaths) cexPath
        = some ( "1".toList, "workPackages[0]".toList) :=
  ⟨by decide, by decide⟩

/-- C6: without a datasets packet, analyze succeeds with isXfa = false, the payload's
    own project name, no acronym, no mismatch verdict and empty field and preview
    lists, while fill fails with the fatal not-XFA error (no output bytes) and the HTTP
    layer answers 400. -/
theorem missing_datasets_behavior (payload : Payload) :
    analyze_pdf none payload
      = ⟨false, none, strOrNone (normalize_text payload.projectName), none, [], []⟩
  ∧ fill_pdf none payload false = .error .notXfa
  ∧ fill_pdf none payload true = .error .notXfa
  ∧ fill_zim_pdf none payload false = .badRequest :=
  ⟨rfl, rfl, rfl, rfl⟩

/-- C7: filling is idempotent — a second fill with the same payload on the tree the
    first fill produced (confirming the mismatch) returns that tree unchanged, so every
    leaf keeps the value of the first fill. -/
theorem fill_idempotent (root t1 : XmlNode) (payload : Payload) (confirm : Bool)
    (m1 : FillMeta) (hv : validTree root = true)
    (h1 : fill_pdf (some root) payload confirm = .ok (t1, m1)) :
    ∃ m2 : FillMeta, fill_pdf (some t1) payload true = .ok (t1, m2) := by
  have ht1 := fill_pdf_ok_inv root payload confirm t1 m1 h1
  have her : eraseTexts t1 = eraseTexts root := by
    rw [ht1]; exact writeAll_erase _ root
  have hpaths : contextFieldPaths t1 = contextFieldPaths root :=
    contextFieldPaths_congr t1 root her
  have hcond : ∀ e ∈ build_field_value_map payload (contextFieldPaths root),
      normalizeStr e.2.1 = e.2.1 ∧
        ∃ posE m, findNodePos t1 e.1 = some posE ∧ nodeAt t1 posE = some m
          ∧ m.text = some e.2.1 := by
    intro e he
    obtain ⟨hvne, hnorm, hsne, hmem⟩ := build_field_value_map_inv payload _ e he
    refine ⟨hnorm, ?_⟩
    obtain ⟨pos, hposmem, hpe, hres⟩ := path_resolves root hv e.1 hmem
    have hrest1 : findNodePos t1 e.1 = some pos := by
      rw [findNodePos_congr t1 root her]; exact hres
    have hest := writeAll_establish (build_field_value_map payload (contextFieldPaths root))
      root root hv rfl (build_field_value_map_wf payload _)
      (fun e' he' => (build_field_value_map_inv payload _ e' he').2.2.2) e he pos hres
    rw [← ht1] at hest
    cases hna : nodeAt t1 pos with
    | none => rw [hna] at hest; exact absurd hest (by simp)
    | some m =>
      rw [hna] at hest
      have h2 : some m.text = some (some (normalizeStr e.2.1)) := hest
      injection h2 with h2
      refine ⟨pos, m, hrest1, hna, ?_⟩
      rw [h2, hnorm]
  have hnoop := writeAll_noop (build_field_value_map payload (contextFieldPaths root)) t1 hcond
  refine ⟨⟨extract_pdf_acronym t1 (contextFieldPaths t1),
    strOrNone (normalize_text payload.projectName),
    computedMismatch t1 payload,
    slugify_ascii (normalize_text payload.projectName) "Projekt".toList
      ++ '_' :: (slugify_ascii (normalize_text payload.companyName) "Unternehmen".toList
        ++ "_Mantelbogen.pdf".toList),
    (writeAll t1 (build_field_value_map payload (contextFieldPaths t1))).2⟩, ?_⟩
  rw [fill_pdf_confirm t1 payload, hpaths, hnoop]

theorem fill_idempotent_witness :
    validTree sampleRoot = true
  ∧ fill_pdf (some sampleRoot) samplePayload true = .ok (sampleFilled, sampleMeta)
  ∧ ∃ m2 : FillMeta, fill_pdf (some sampleFilled) samplePayload true
      = .ok (sampleFilled, m2) :=
  ⟨by decide, by rfl,
    fill_idempotent sampleRoot sampleFilled samplePayload true sampleMeta (by decide) (by rfl)⟩

/-- C8: every entry of the produced value map sits on one of the given leaf paths and
    carries a value that is non-empty and already whitespace-normalized, and a
    non-empty source tag — a matched rule whose rendered value normalizes to empty
    contributes no entry. -/
theorem value_map_entries_nonempty (payload : Payload) (paths : List Str) :
    ∀ e ∈ build_field_value_map payload paths,
      e.1 ∈ paths ∧ e.2.1 ≠ [] ∧ normalizeStr e.2.1 = e.2.1 ∧ e.2.2 ≠ [] := by
  intro e he
  obtain ⟨h1, h2, h3, h4⟩ := build_field_value_map_inv payload paths e he
  exact ⟨h4, h1, h2, h3⟩

theorem value_map_entries_nonempty_witness :
    (cexPath, "1".toList, "workPackages[0]".toList) ∈ build_field_value_map cexPayload cexPaths
  ∧ (cexPath ∈ cexPaths ∧ "1".toList ≠ ([] : Str)
      ∧ normalizeStr "1".toList = "1".toList ∧ "workPackages[0]".toList ≠ ([] : Str)) :=
  ⟨by decide, value_map_entries_nonempty cexPayload cexPaths
    (cexPath, "1".toList, "workPackages[0]".toList) (by decide)⟩

/-- C9: currency rendering gives the two spec values on the concrete inputs, always
    ends in a decimal comma followed by exactly two digits, and emits only digits and
    the separators (a dot for thousands, a comma for decimals, a leading minus) — in
    particular no currency symbol. -/
theorem euro_format_spec :
    format_euro (2469 / 2 : ℚ) = "1.234,50".toList
  ∧ format_euro (0 : ℚ) = "0,00".toList
  ∧ (∀ q : ℚ, ∃ (pre : Str) (a b : Nat), a < 10 ∧ b < 10 ∧
      format_euro q = pre ++ [',', digitChar a, digitChar b])
  ∧ (∀ q : ℚ, ∀ c ∈ format_euro q, c.isDigit = true ∨ c = ',' ∨ c = '.' ∨ c = '-') :=
  ⟨format_euro_1234_5, format_euro_zero, format_euro_shape, format_euro_chars⟩

/-- C10: analyze reports a mismatch verdict only when both the document acronym and
    the payload project name are present and non-empty; if either is absent the flag is
    the unknown value none, never false. -/
theorem mismatch_unknown_when_one_missing :
    (∀ (root : XmlNode) (payload : Payload) (b : Bool),
        (analyze_pdf (some root) payload).acronymMismatch = some b →
          ∃ a p, (analyze_pdf (some root) payload).pdfAcronym = some a
            ∧ (analyze_pdf (some root) payload).projectName = some p ∧ a ≠ [] ∧ p ≠ [])
  ∧ (∀ (root : XmlNode) (payload : Payload),
        ((analyze_pdf (some root) payload).pdfAcronym = none
          ∨ (analyze_pdf (some root) payload).projectName = none) →
          (analyze_pdf (some root) payload).acronymMismatch = none) := by
  constructor
  · intro root payload b h
    exact mismatchFlag_some_inv _ _ b h
  · intro root payload h
    have hm : (analyze_pdf (some root) payload).acronymMismatch
        = mismatchFlag (analyze_pdf (some root) payload).pdfAcronym
            (analyze_pdf (some root) payload).projectName := rfl
    rcases h with h | h
    · rw [hm, h]
      exact mismatchFlag_none_left _
    · rw [hm, h]
      exact mismatchFlag_none_right _
